import Mathlib

/-!
Verification of the clortho storage core: a shallow embedding of the
varint codec (`src/block/src/varint.rs`), the SST writer
(`src/block/src/sst/sst_writer.rs`), the SST reader
(`src/block/sst/sst_reader.rs`), the LSM level and tree iterators
(`src/block/src/lsm/level.rs`, `src/block/lsm/mod.rs`) and the two file
stores (`src/block/src/file_store/*.rs`), together with proofs and
refutations of the specification's claims about them.

Bytes are modelled as `Nat` (always `< 256` where it matters), byte
strings as `List Nat`, machine integers as `Nat`/`Int` with explicit
wrap-around where the source casts, and fallible or panicking code as
`Option`/`Except`.
-/

/-- Comparison result of two byte strings, mirroring Rust's derived
lexicographic `Ord` on `&[u8]`: compare element-wise, a strict prefix is
less than its extension. -/
def byteCmp : List Nat → List Nat → Ordering
  | [], [] => Ordering.eq
  | [], _ :: _ => Ordering.lt
  | _ :: _, [] => Ordering.gt
  | a :: as, b :: bs =>
    if a < b then Ordering.lt
    else if b < a then Ordering.gt
    else byteCmp as bs

/-- `a` is lexicographically strictly below `b`. -/
def bytesLt (a b : List Nat) : Prop := byteCmp a b = Ordering.lt

/-- `a` is lexicographically at most `b`. -/
def bytesLe (a b : List Nat) : Prop := byteCmp a b ≠ Ordering.gt

instance (a b : List Nat) : Decidable (bytesLt a b) :=
  inferInstanceAs (Decidable (byteCmp a b = Ordering.lt))

instance (a b : List Nat) : Decidable (bytesLe a b) :=
  inferInstanceAs (Decidable (byteCmp a b ≠ Ordering.gt))

theorem byteCmp_refl (a : List Nat) : byteCmp a a = Ordering.eq := by
  induction a with
  | nil => rfl
  | cons x xs ih => simp [byteCmp, ih]

theorem byteCmp_eq_iff {a b : List Nat} : byteCmp a b = Ordering.eq ↔ a = b := by
  constructor
  · intro h
    induction a generalizing b with
    | nil => cases b with
      | nil => rfl
      | cons y ys => simp [byteCmp] at h
    | cons x xs ih =>
      cases b with
      | nil => simp [byteCmp] at h
      | cons y ys =>
        by_cases hxy : x < y
        · simp [byteCmp, hxy] at h
        · by_cases hyx : y < x
          · simp [byteCmp, hxy, hyx] at h
          · have hx : x = y := Nat.le_antisymm (Nat.not_lt.mp hyx) (Nat.not_lt.mp hxy)
            simp only [byteCmp, if_neg hxy, if_neg hyx] at h
            rw [hx, ih h]
  · intro h; subst h; exact byteCmp_refl a

theorem byteCmp_swap (a b : List Nat) : (byteCmp a b).swap = byteCmp b a := by
  induction a generalizing b with
  | nil => cases b <;> rfl
  | cons x xs ih =>
    cases b with
    | nil => rfl
    | cons y ys =>
      by_cases hxy : x < y
      · have : ¬ y < x := Nat.lt_asymm hxy
        simp [byteCmp, hxy, this, Ordering.swap]
      · by_cases hyx : y < x
        · simp [byteCmp, hxy, hyx, Ordering.swap]
        · simp only [byteCmp, if_neg hxy, if_neg hyx]
          exact ih ys

theorem bytesLt_asymm {a b : List Nat} (h : bytesLt a b) : ¬ bytesLt b a := by
  intro h2
  unfold bytesLt at h h2
  have := byteCmp_swap a b
  rw [h, h2] at this
  simp [Ordering.swap] at this

theorem bytesLt_trans {a b c : List Nat} (hab : bytesLt a b) (hbc : bytesLt b c) :
    bytesLt a c := by
  unfold bytesLt at *
  induction a generalizing b c with
  | nil =>
    cases c with
    | nil =>
      cases b with
      | nil => exact hab
      | cons y ys => simp [byteCmp] at hbc
    | cons z zs => rfl
  | cons x xs ih =>
    cases b with
    | nil => simp [byteCmp] at hab
    | cons y ys =>
      cases c with
      | nil => simp [byteCmp] at hbc
      | cons z zs =>
        simp only [byteCmp] at hab hbc ⊢
        by_cases hxy : x < y
        · by_cases hyz : y < z
          · have hxz : x < z := Nat.lt_trans hxy hyz
            simp [hxz]
          · by_cases hzy : z < y
            · simp [hxy, hyz, hzy] at hbc
            · have : y = z := Nat.le_antisymm (Nat.not_lt.mp hzy) (Nat.not_lt.mp hyz)
              subst this
              simp [hxy]
        · by_cases hyx : y < x
          · simp [hxy, hyx] at hab
          · have hxey : x = y := Nat.le_antisymm (Nat.not_lt.mp hyx) (Nat.not_lt.mp hxy)
            subst hxey
            simp only [if_neg hxy, if_neg hyx] at hab
            by_cases hxz : x < z
            · simp [hxz]
            · by_cases hzx : z < x
              · simp [hxz, hzx] at hbc
              · simp only [if_neg hxz, if_neg hzx] at hbc ⊢
                exact ih hab hbc

theorem bytesLt_or_ge (a b : List Nat) :
    bytesLt a b ∨ a = b ∨ bytesLt b a := by
  unfold bytesLt
  rcases h : byteCmp a b with _ | _ | _
  · exact Or.inl rfl
  · exact Or.inr (Or.inl (byteCmp_eq_iff.mp h))
  · refine Or.inr (Or.inr ?_)
    rw [← byteCmp_swap a b, h]
    rfl

theorem bytesLe_iff {a b : List Nat} : bytesLe a b ↔ bytesLt a b ∨ a = b := by
  unfold bytesLe bytesLt
  rcases h : byteCmp a b with _ | _ | _
  · simp
  · simp [byteCmp_eq_iff.mp h]
  · have hne : a ≠ b := by
      intro he; rw [he, byteCmp_refl] at h; cases h
    simp [hne]

theorem bytesLt_irrefl (a : List Nat) : ¬ bytesLt a a := by
  unfold bytesLt; rw [byteCmp_refl]; intro h; cases h

/-- A strict prefix (by `take`) of a byte string is at most the string. -/
theorem bytesLe_take (a : List Nat) (j : Nat) : bytesLe (a.take j) a := by
  unfold bytesLe
  induction a generalizing j with
  | nil => cases j <;> simp [byteCmp]
  | cons x xs ih =>
    cases j with
    | zero => simp [byteCmp]
    | succ j =>
      simp only [List.take_succ_cons, byteCmp, Nat.lt_irrefl, if_neg (Nat.lt_irrefl x)]
      simpa using ih j

/-- Big-endian byte encoding of `n` in exactly `w` bytes (the semantics of
Rust's `to_be_bytes` after the appropriate truncating cast). -/
def toBytesBE : Nat → Nat → List Nat
  | 0, _ => []
  | w + 1, n => (n / 256 ^ w) % 256 :: toBytesBE w (n % 256 ^ w)

/-- Big-endian decoding of a byte list (the semantics of `from_be_bytes`). -/
def fromBytesBE (l : List Nat) : Nat :=
  l.foldl (fun acc b => acc * 256 + b) 0

theorem toBytesBE_length (w n : Nat) : (toBytesBE w n).length = w := by
  induction w generalizing n with
  | zero => rfl
  | succ w ih => simp [toBytesBE, ih]

theorem fromBytesBE_cons (b : Nat) (l : List Nat) :
    fromBytesBE (b :: l) = b * 256 ^ l.length + fromBytesBE l := by
  unfold fromBytesBE
  have gen : ∀ (l : List Nat) (acc : Nat),
      l.foldl (fun acc b => acc * 256 + b) acc =
        acc * 256 ^ l.length + l.foldl (fun acc b => acc * 256 + b) 0 := by
    intro l
    induction l with
    | nil => intro acc; simp
    | cons x xs ih =>
      intro acc
      simp only [List.foldl_cons, List.length_cons]
      rw [ih (acc * 256 + x), ih (0 * 256 + x)]
      ring
  simp only [List.foldl_cons]
  rw [gen l (0 * 256 + b)]
  ring

theorem fromBytesBE_toBytesBE (w n : Nat) (h : n < 256 ^ w) :
    fromBytesBE (toBytesBE w n) = n := by
  induction w generalizing n with
  | zero =>
    simp [toBytesBE, fromBytesBE]
    omega
  | succ w ih =>
    simp only [toBytesBE]
    rw [fromBytesBE_cons, toBytesBE_length, ih _ (Nat.mod_lt _ (Nat.pos_pow_of_pos w (by norm_num)))]
    have hd : n / 256 ^ w < 256 := by
      rw [Nat.div_lt_iff_lt_mul (Nat.pos_pow_of_pos w (by norm_num))]
      have hp : 256 ^ (w + 1) = 256 ^ w * 256 := by ring
      omega
    have hdm := Nat.div_add_mod n (256 ^ w)
    rw [Nat.mod_eq_of_lt hd, Nat.mul_comm]
    exact hdm

/-- Each byte of a big-endian encoding is below 256. -/
theorem toBytesBE_lt (w n : Nat) : ∀ b ∈ toBytesBE w n, b < 256 := by
  induction w generalizing n with
  | zero => intro b hb; simp [toBytesBE] at hb
  | succ w ih =>
    intro b hb
    simp only [toBytesBE, List.mem_cons] at hb
    rcases hb with hb | hb
    · subst hb; exact Nat.mod_lt _ (by norm_num)
    · exact ih _ b hb

/-- `toBytesBE` is strictly monotone (same width): the byte strings compare
like the numbers. -/
theorem toBytesBE_lt_of_lt (w : Nat) : ∀ {n m : Nat}, n < m → m < 256 ^ w →
    bytesLt (toBytesBE w n) (toBytesBE w m) := by
  induction w with
  | zero => intro n m h hm; simp at hm; omega
  | succ w ih =>
    intro n m h hm
    simp only [toBytesBE]
    unfold bytesLt byteCmp
    have hmd : m / 256 ^ w < 256 := by
      rw [Nat.div_lt_iff_lt_mul (Nat.pos_pow_of_pos w (by norm_num))]
      have hp : 256 ^ (w + 1) = 256 ^ w * 256 := by ring
      omega
    by_cases hdiv : n / 256 ^ w < m / 256 ^ w
    · simp [Nat.mod_eq_of_lt (Nat.lt_trans hdiv hmd), Nat.mod_eq_of_lt hmd, hdiv]
    · have hle : m / 256 ^ w ≤ n / 256 ^ w := Nat.not_lt.mp hdiv
      have hge : n / 256 ^ w ≤ m / 256 ^ w := Nat.div_le_div_right (Nat.le_of_lt h)
      have heq : n / 256 ^ w = m / 256 ^ w := Nat.le_antisymm hge hle
      have hmod : n % 256 ^ w < m % 256 ^ w := by
        have hn := Nat.div_add_mod n (256 ^ w)
        have hm2 := Nat.div_add_mod m (256 ^ w)
        rw [heq] at hn
        omega
      simp only [heq, if_neg (Nat.lt_irrefl _), Nat.mod_eq_of_lt hmd]
      exact ih hmod (Nat.mod_lt _ (Nat.pos_pow_of_pos w (by norm_num)))

/-- Model of Rust slice indexing `l[..n]` / `l[n..]`: `none` models the panic
on a truncated buffer. -/
def readBytes (n : Nat) (l : List Nat) : Option (List Nat × List Nat) :=
  if n ≤ l.length then some (l.take n, l.drop n) else none

theorem readBytes_append (n : Nat) (pre rest : List Nat) (h : pre.length = n) :
    readBytes n (pre ++ rest) = some (pre, rest) := by
  subst h
  unfold readBytes
  rw [if_pos (by simp), List.take_left, List.drop_left]

/-- `write_varint_unsigned` from `varint.rs`: the bytes appended to the
buffer for a `u32` value `i` (no cast in the source can wrap: each is
guarded by the branch condition). -/
def write_varint_unsigned (i : Nat) : List Nat :=
  if i < 253 then [i]
  else if i ≤ 65535 then 253 :: toBytesBE 2 i
  else 254 :: toBytesBE 4 i

/-- `read_varint_unsigned` from `varint.rs`; returns the value and the
remaining buffer, `none` on a truncated buffer (the source panics). -/
def read_varint_unsigned : List Nat → Option (Nat × List Nat)
  | [] => none
  | b :: rem =>
    if b = 253 then (readBytes 2 rem).map (fun p => (fromBytesBE p.1, p.2))
    else if b = 254 then (readBytes 4 rem).map (fun p => (fromBytesBE p.1, p.2))
    else some (b, rem)

/-- Reinterpret a `u64` bit pattern as an `i64` (`u as i64`). -/
def signedOfU64 (u : Nat) : Int :=
  if u < 2 ^ 63 then (u : Int) else (u : Int) - 2 ^ 64

/-- `write_varint_signed` from `varint.rs`: the bytes appended for an
`i64` value. Negative payloads are bitwise complements (`!x = 2^w-1-x`),
the widest branches write the two's-complement `to_be_bytes` pattern. -/
def write_varint_signed (i : Int) : List Nat :=
  if i ≥ 0 then
    if i ≤ 148 then [(i + 103).toNat]
    else if i ≤ 255 then [252, i.toNat]
    else if i ≤ 65535 then 253 :: toBytesBE 2 i.toNat
    else if i ≤ 4294967295 then 254 :: toBytesBE 4 i.toNat
    else 255 :: toBytesBE 8 i.toNat
  else
    if i ≥ -99 then [(i + 103).toNat]
    else if i ≥ -255 then [3, 255 - (-i).toNat]
    else if i ≥ -65535 then 2 :: toBytesBE 2 (65535 - (-i).toNat)
    else if i ≥ -4294967295 then 1 :: toBytesBE 4 (4294967295 - (-i).toNat)
    else 0 :: toBytesBE 8 (i + 2 ^ 64).toNat

/-- `read_varint_signed` from `varint.rs`. -/
def read_varint_signed : List Nat → Option (Int × List Nat)
  | [] => none
  | b :: rem =>
    if b = 0 then
      (readBytes 8 rem).map (fun p => (signedOfU64 (fromBytesBE p.1), p.2))
    else if b = 1 then
      (readBytes 4 rem).map (fun p => (-(((4294967295 - fromBytesBE p.1 : Nat) : Int)), p.2))
    else if b = 2 then
      (readBytes 2 rem).map (fun p => (-(((65535 - fromBytesBE p.1 : Nat) : Int)), p.2))
    else if b = 3 then
      (readBytes 1 rem).map (fun p => (-(((255 - fromBytesBE p.1 : Nat) : Int)), p.2))
    else if b = 252 then
      (readBytes 1 rem).map (fun p => ((fromBytesBE p.1 : Int), p.2))
    else if b = 253 then
      (readBytes 2 rem).map (fun p => ((fromBytesBE p.1 : Int), p.2))
    else if b = 254 then
      (readBytes 4 rem).map (fun p => ((fromBytesBE p.1 : Int), p.2))
    else if b = 255 then
      (readBytes 8 rem).map (fun p => (signedOfU64 (fromBytesBE p.1), p.2))
    else some ((b : Int) - 103, rem)

theorem bytesLt_cons_of_lt {a b : Nat} (as bs : List Nat) (h : a < b) :
    bytesLt (a :: as) (b :: bs) := by
  unfold bytesLt byteCmp
  simp [h]

theorem bytesLt_cons_of_eq {a : Nat} {as bs : List Nat} (h : bytesLt as bs) :
    bytesLt (a :: as) (a :: bs) := by
  unfold bytesLt byteCmp
  simpa [Nat.lt_irrefl] using h

theorem read_write_varint_unsigned (i : Nat) (hi : i < 2 ^ 32) (rest : List Nat) :
    read_varint_unsigned (write_varint_unsigned i ++ rest) = some (i, rest) := by
  unfold write_varint_unsigned
  by_cases h1 : i < 253
  · simp only [if_pos h1, List.cons_append, List.nil_append, read_varint_unsigned]
    rw [if_neg (by omega), if_neg (by omega)]
  · by_cases h2 : i ≤ 65535
    · simp only [if_neg h1, if_pos h2, List.cons_append, read_varint_unsigned, if_pos rfl]
      rw [readBytes_append 2 _ rest (toBytesBE_length 2 i)]
      simp [fromBytesBE_toBytesBE 2 i (by norm_num; omega)]
    · simp only [if_neg h1, if_neg h2, List.cons_append, read_varint_unsigned]
      rw [if_pos trivial, readBytes_append 4 _ rest (toBytesBE_length 4 i)]
      simp [fromBytesBE_toBytesBE 4 i (by norm_num; omega)]

theorem write_varint_unsigned_mono {i j : Nat} (hij : i < j) (hj : j < 2 ^ 32) :
    bytesLt (write_varint_unsigned i) (write_varint_unsigned j) := by
  unfold write_varint_unsigned
  split_ifs <;>
    first
      | omega
      | (exact bytesLt_cons_of_lt _ _ (by omega))
      | (exact bytesLt_cons_of_eq (toBytesBE_lt_of_lt 2 hij (by norm_num; omega)))
      | (exact bytesLt_cons_of_eq (toBytesBE_lt_of_lt 4 hij (by norm_num; omega)))


theorem read_write_varint_signed (i : Int) (hlo : -(2 ^ 63) ≤ i) (hhi : i < 2 ^ 63)
    (rest : List Nat) :
    read_varint_signed (write_varint_signed i ++ rest) = some (i, rest) := by
  unfold write_varint_signed
  by_cases h0 : i ≥ 0
  · rw [if_pos h0]
    by_cases h1 : i ≤ 148
    · rw [if_pos h1]
      simp only [List.cons_append, List.nil_append, read_varint_signed]
      repeat rw [if_neg (by omega)]
      simp only [Option.some.injEq, Prod.mk.injEq]
      exact ⟨by omega, trivial⟩
    · by_cases h2 : i ≤ 255
      · rw [if_neg h1, if_pos h2]
        norm_num [read_varint_signed, readBytes, fromBytesBE]
        omega
      · by_cases h3 : i ≤ 65535
        · rw [if_neg h1, if_neg h2, if_pos h3]
          norm_num [read_varint_signed]
          rw [readBytes_append 2 _ rest (toBytesBE_length 2 _)]
          refine ⟨_, rfl, ?_⟩
          rw [fromBytesBE_toBytesBE 2 _ (by norm_num; omega)]
          omega
        · by_cases h4 : i ≤ 4294967295
          · rw [if_neg h1, if_neg h2, if_neg h3, if_pos h4]
            norm_num [read_varint_signed]
            rw [readBytes_append 4 _ rest (toBytesBE_length 4 _)]
            refine ⟨_, rfl, ?_⟩
            rw [fromBytesBE_toBytesBE 4 _ (by norm_num; omega)]
            omega
          · rw [if_neg h1, if_neg h2, if_neg h3, if_neg h4]
            norm_num [read_varint_signed]
            rw [readBytes_append 8 _ rest (toBytesBE_length 8 _)]
            refine ⟨_, rfl, ?_⟩
            rw [fromBytesBE_toBytesBE 8 _ (by norm_num; omega)]
            unfold signedOfU64
            split_ifs <;> omega
  · rw [if_neg h0]
    by_cases h1 : i ≥ -99
    · rw [if_pos h1]
      simp only [List.cons_append, List.nil_append, read_varint_signed]
      repeat rw [if_neg (by omega)]
      simp only [Option.some.injEq, Prod.mk.injEq]
      exact ⟨by omega, trivial⟩
    · by_cases h2 : i ≥ -255
      · rw [if_neg h1, if_pos h2]
        simp only [List.cons_append, List.nil_append, read_varint_signed]
        norm_num
        refine ⟨[255 - (-i).toNat], by simp [readBytes], ?_⟩
        simp [fromBytesBE]
        omega
      · by_cases h3 : i ≥ -65535
        · rw [if_neg h1, if_neg h2, if_pos h3]
          norm_num [read_varint_signed]
          rw [readBytes_append 2 _ rest (toBytesBE_length 2 _)]
          refine ⟨_, rfl, ?_⟩
          rw [fromBytesBE_toBytesBE 2 _ (by norm_num; omega)]
          omega
        · by_cases h4 : i ≥ -4294967295
          · rw [if_neg h1, if_neg h2, if_neg h3, if_pos h4]
            norm_num [read_varint_signed]
            rw [readBytes_append 4 _ rest (toBytesBE_length 4 _)]
            refine ⟨_, rfl, ?_⟩
            rw [fromBytesBE_toBytesBE 4 _ (by norm_num; omega)]
            omega
          · rw [if_neg h1, if_neg h2, if_neg h3, if_neg h4]
            norm_num [read_varint_signed]
            rw [readBytes_append 8 _ rest (toBytesBE_length 8 _)]
            refine ⟨_, rfl, ?_⟩
            rw [fromBytesBE_toBytesBE 8 _ (by norm_num; omega)]
            unfold signedOfU64
            split_ifs <;> omega

set_option maxHeartbeats 1000000 in
theorem write_varint_signed_mono {i j : Int} (hlo : -(2 ^ 63) ≤ i) (hij : i < j)
    (hj : j < 2 ^ 63) :
    bytesLt (write_varint_signed i) (write_varint_signed j) := by
  unfold write_varint_signed
  split_ifs <;>
    first
      | (exfalso; omega)
      | (exact bytesLt_cons_of_lt _ _ (by omega))
      | (exact bytesLt_cons_of_eq (bytesLt_cons_of_lt _ _ (by omega)))
      | (exact bytesLt_cons_of_eq (toBytesBE_lt_of_lt 2 (by omega) (by norm_num; omega)))
      | (exact bytesLt_cons_of_eq (toBytesBE_lt_of_lt 4 (by omega) (by norm_num; omega)))
      | (exact bytesLt_cons_of_eq (toBytesBE_lt_of_lt 8 (by omega) (by norm_num; omega)))

theorem write_varint_unsigned_order {i j : Nat} (hi : i < 2 ^ 32) (hj : j < 2 ^ 32) :
    bytesLt (write_varint_unsigned i) (write_varint_unsigned j) ↔ i < j := by
  constructor
  · intro h
    rcases Nat.lt_trichotomy i j with hc | hc | hc
    · exact hc
    · subst hc; exact absurd h (bytesLt_irrefl _)
    · exact absurd h (bytesLt_asymm (write_varint_unsigned_mono hc hi))
  · intro h; exact write_varint_unsigned_mono h hj

theorem write_varint_signed_order {i j : Int} (hi1 : -(2 ^ 63) ≤ i) (hi2 : i < 2 ^ 63)
    (hj1 : -(2 ^ 63) ≤ j) (hj2 : j < 2 ^ 63) :
    bytesLt (write_varint_signed i) (write_varint_signed j) ↔ i < j := by
  constructor
  · intro h
    rcases lt_trichotomy i j with hc | hc | hc
    · exact hc
    · subst hc; exact absurd h (bytesLt_irrefl _)
    · exact absurd h (bytesLt_asymm (write_varint_signed_mono hj1 hc hi2))
  · intro h; exact write_varint_signed_mono hi1 h hj2

/-- Claim C5: for every `u32` and every `i64`, decoding the varint encoding
returns the original value (so encoding is injective), and the
lexicographic byte order of two encodings coincides with the numeric order
of the encoded values, across all width and sign boundaries. -/
theorem varint_codec_correct :
    (∀ i : Nat, i < 2 ^ 32 → ∀ rest,
      read_varint_unsigned (write_varint_unsigned i ++ rest) = some (i, rest)) ∧
    (∀ i j : Nat, i < 2 ^ 32 → j < 2 ^ 32 →
      (bytesLt (write_varint_unsigned i) (write_varint_unsigned j) ↔ i < j)) ∧
    (∀ i j : Nat, i < 2 ^ 32 → j < 2 ^ 32 →
      write_varint_unsigned i = write_varint_unsigned j → i = j) ∧
    (∀ i : Int, -(2 ^ 63) ≤ i → i < 2 ^ 63 → ∀ rest,
      read_varint_signed (write_varint_signed i ++ rest) = some (i, rest)) ∧
    (∀ i j : Int, -(2 ^ 63) ≤ i → i < 2 ^ 63 → -(2 ^ 63) ≤ j → j < 2 ^ 63 →
      (bytesLt (write_varint_signed i) (write_varint_signed j) ↔ i < j)) ∧
    (∀ i j : Int, -(2 ^ 63) ≤ i → i < 2 ^ 63 → -(2 ^ 63) ≤ j → j < 2 ^ 63 →
      write_varint_signed i = write_varint_signed j → i = j) := by
  refine ⟨read_write_varint_unsigned, fun i j hi hj => write_varint_unsigned_order hi hj,
    ?_, read_write_varint_signed,
    fun i j hi1 hi2 hj1 hj2 => write_varint_signed_order hi1 hi2 hj1 hj2, ?_⟩
  · intro i j hi hj heq
    have h1 := read_write_varint_unsigned i hi []
    have h2 := read_write_varint_unsigned j hj []
    rw [heq] at h1
    rw [h1] at h2
    exact (Prod.mk.injEq _ _ _ _ ▸ Option.some.injEq _ _ ▸ h2).1
  · intro i j hi1 hi2 hj1 hj2 heq
    have h1 := read_write_varint_signed i hi1 hi2 []
    have h2 := read_write_varint_signed j hj1 hj2 []
    rw [heq] at h1
    rw [h1] at h2
    exact (Prod.mk.injEq _ _ _ _ ▸ Option.some.injEq _ _ ▸ h2).1

/-- Witness for C5 at concrete inputs spanning the width and sign
boundaries (252/253 tags, 148/149, negative complements). -/
theorem varint_codec_correct_witness :
    read_varint_unsigned (write_varint_unsigned 253 ++ []) = some (253, []) ∧
    bytesLt (write_varint_unsigned 252) (write_varint_unsigned 253) ∧
    read_varint_signed (write_varint_signed (-100) ++ []) = some (-100, []) ∧
    bytesLt (write_varint_signed 148) (write_varint_signed 149) ∧
    bytesLt (write_varint_signed (-1)) (write_varint_signed 0) := by
  refine ⟨varint_codec_correct.1 253 (by decide) [],
    (varint_codec_correct.2.1 252 253 (by decide) (by decide)).mpr (by decide),
    varint_codec_correct.2.2.2.1 (-100) (by decide) (by decide) [],
    (varint_codec_correct.2.2.2.2.1 148 149 (by decide) (by decide) (by decide)
      (by decide)).mpr (by decide),
    (varint_codec_correct.2.2.2.2.1 (-1) 0 (by decide) (by decide) (by decide)
      (by decide)).mpr (by decide)⟩

theorem byteCmp_cons_self (a : Nat) (as bs : List Nat) :
    byteCmp (a :: as) (a :: bs) = byteCmp as bs := by
  simp [byteCmp]

/-- `common_prefix_len` from `sst_writer.rs`: length of the longest common
prefix of two byte strings (index of first mismatch, else the shorter
length). -/
def common_prefix_len : List Nat → List Nat → Nat
  | a :: as, b :: bs => if a = b then common_prefix_len as bs + 1 else 0
  | _, _ => 0

/-- Claim C9: for byte strings with `left < right` (as holds for
`left.max < right.min` on adjacent children), the pivot
`right.take (common_prefix_len left right + 1)` is a well-defined prefix of
`right`, strictly exceeds `left`, and no shorter prefix of `right` exceeds
`left`. -/
theorem pivot_minimal_separator (left right : List Nat) (h : bytesLt left right) :
    common_prefix_len left right + 1 ≤ right.length ∧
    bytesLt left (right.take (common_prefix_len left right + 1)) ∧
    (∀ j ≤ common_prefix_len left right, ¬ bytesLt left (right.take j)) := by
  induction left generalizing right with
  | nil =>
    cases right with
    | nil => exact absurd h (bytesLt_irrefl [])
    | cons b bs =>
      refine ⟨by simp [common_prefix_len], by simp [common_prefix_len]; rfl, ?_⟩
      intro j hj
      have hj0 : j = 0 := by
        simpa [common_prefix_len] using hj
      subst hj0
      exact bytesLt_irrefl []
  | cons a as ih =>
    cases right with
    | nil => exact absurd h (by unfold bytesLt byteCmp at *; intro hc; cases hc)
    | cons b bs =>
      by_cases hab : a < b
      · have hc : common_prefix_len (a :: as) (b :: bs) = 0 := by
          simp [common_prefix_len, Nat.ne_of_lt hab]
        refine ⟨by simp [hc], ?_, ?_⟩
        · rw [hc]
          simpa using bytesLt_cons_of_lt as [] hab
        · intro j hj
          rw [hc] at hj
          have hj0 : j = 0 := Nat.le_zero.mp hj
          subst hj0
          intro hlt
          unfold bytesLt byteCmp at hlt
          cases hlt
      · by_cases hba : b < a
        · exfalso
          unfold bytesLt byteCmp at h
          rw [if_neg hab, if_pos hba] at h
          cases h
        · have hab2 : a = b := Nat.le_antisymm (Nat.not_lt.mp hba) (Nat.not_lt.mp hab)
          subst hab2
          have h2 : bytesLt as bs := by
            unfold bytesLt at h ⊢
            rwa [byteCmp_cons_self] at h
          obtain ⟨ih1, ih2, ih3⟩ := ih bs h2
          have hc : common_prefix_len (a :: as) (a :: bs) = common_prefix_len as bs + 1 := by
            simp [common_prefix_len]
          refine ⟨?_, ?_, ?_⟩
          · rw [hc]; simp; omega
          · rw [hc]
            simp only [List.take_succ_cons]
            unfold bytesLt
            rw [byteCmp_cons_self]
            exact ih2
          · intro j hj
            rw [hc] at hj
            cases j with
            | zero =>
              simp only [List.take_zero]
              intro hlt
              unfold bytesLt byteCmp at hlt
              cases hlt
            | succ j =>
              simp only [List.take_succ_cons]
              intro hlt
              unfold bytesLt at hlt
              rw [byteCmp_cons_self] at hlt
              exact ih3 j (by omega) hlt

/-- Witness for C9 at a concrete boundary pair. -/
theorem pivot_minimal_separator_witness :
    bytesLt [97, 98] [97, 122] ∧
    common_prefix_len [97, 98] [97, 122] + 1 ≤ 2 ∧
    bytesLt [97, 98] (List.take (common_prefix_len [97, 98] [97, 122] + 1) [97, 122]) ∧
    (∀ j ≤ common_prefix_len [97, 98] [97, 122], ¬ bytesLt [97, 98] (List.take j [97, 122])) := by
  have h := pivot_minimal_separator [97, 98] [97, 122] (by decide)
  exact ⟨by decide, h.1, h.2.1, h.2.2⟩

/-- Rust `usize → i32` cast (`self.size() as i32`): truncate to 32 bits and
reinterpret the sign bit. -/
def i32OfUsize (n : Nat) : Int :=
  if n % 2 ^ 32 < 2 ^ 31 then ((n % 2 ^ 32 : Nat) : Int)
  else ((n % 2 ^ 32 : Nat) : Int) - 2 ^ 32

/-- `i32::to_be_bytes`: four big-endian bytes of the two's-complement
pattern. -/
def i32be (i : Int) : List Nat := toBytesBE 4 (i % 2 ^ 32).toNat

/-- Writer-side page descriptor (`PageData` in `sst_writer.rs`):
`{min, max, pointer}` for a run of data records or a sub-tree. -/
structure PageData where
  min : List Nat
  max : List Nat
  pointer : Int
deriving Repr, DecidableEq

instance : Inhabited PageData := ⟨⟨[], [], 0⟩⟩

/-- The eagerly written 26-byte SST header
`"clortho\ndata\nv1\n\n\n\n\n\n\n---\n"`. -/
def sstHeader : List Nat :=
  [99, 108, 111, 114, 116, 104, 111, 10, 100, 97, 116, 97, 10, 118, 49, 10,
   10, 10, 10, 10, 10, 10, 45, 45, 45, 10]

/-- State of `SstWriter` over an in-memory cursor: the bytes written so
far plus the page bookkeeping fields. -/
structure SstWriter where
  file : List Nat
  data_pages : List PageData
  page_offset : Nat
  current_page : PageData
deriving Repr, DecidableEq

/-- `SstWriter::new`: header eagerly written, empty page state. -/
def SstWriter.new : SstWriter := ⟨sstHeader, [], 0, default⟩

/-- `SstWriter::size`: the cursor position, i.e. bytes written so far. -/
def SstWriter.size (s : SstWriter) : Nat := s.file.length

/-- `SstWriter::push_record`: append `varint(key_len) · varint(value_len)
· key · value`, update the current page descriptor, close the page every
16 records. The source performs no ordering check on `record_key`. -/
def SstWriter.push_record (s : SstWriter) (record_key record_value : List Nat) : SstWriter :=
  let record_pointer : Int := -(i32OfUsize s.size)
  let file := s.file ++ write_varint_unsigned (record_key.length % 2 ^ 32) ++
    write_varint_unsigned (record_value.length % 2 ^ 32) ++ record_key ++ record_value
  let cp0 := if s.page_offset = 0 then
      { s.current_page with min := record_key, pointer := record_pointer }
    else s.current_page
  let cp := { cp0 with max := record_key }
  if s.page_offset + 1 = 16 then
    { file := file, data_pages := s.data_pages ++ [cp], page_offset := 0,
      current_page := default }
  else
    { file := file, data_pages := s.data_pages, page_offset := s.page_offset + 1,
      current_page := cp }

/-- Fuel-based helper for `chunks64` (the fuel only bounds the recursion;
`l.length` always suffices since each step strictly shrinks the list). -/
def chunks64Fuel : Nat → List PageData → List (List PageData)
  | 0, _ => []
  | _, [] => []
  | fuel + 1, x :: t => (x :: t).take 64 :: chunks64Fuel fuel ((x :: t).drop 64)

/-- `children.chunks_mut(SEARCH_TREE_SIZE)` with `SEARCH_TREE_SIZE = 64`. -/
def chunks64 (l : List PageData) : List (List PageData) :=
  chunks64Fuel l.length l

theorem chunks64Fuel_irrel :
    ∀ (f1 f2 : Nat) (l : List PageData), l.length ≤ f1 → l.length ≤ f2 →
    chunks64Fuel f1 l = chunks64Fuel f2 l := by
  intro f1
  induction f1 with
  | zero =>
    intro f2 l h1 _
    have : l = [] := List.length_eq_zero.mp (by omega)
    subst this
    cases f2 <;> rfl
  | succ f1 ih =>
    intro f2 l h1 h2
    cases l with
    | nil => cases f2 <;> rfl
    | cons x t =>
      cases f2 with
      | zero => simp at h2
      | succ f2 =>
        simp only [chunks64Fuel]
        have hd : ((x :: t).drop 64).length ≤ f1 := by
          simp only [List.length_drop, List.length_cons] at *
          omega
        have hd2 : ((x :: t).drop 64).length ≤ f2 := by
          simp only [List.length_drop, List.length_cons] at *
          omega
        rw [ih f2 _ hd hd2]

/-- The pivot-writing loop of `write_search_tree`: for each adjacent pair,
write `varint(pivot_len) · pivot` and record the file offset. An `error`
models the panic when `common_prefix_len + 1` overruns `right.min` (the
slice `&right_val[..len+1]` would be out of bounds). The error carries the
bytes written so far. -/
def writePivots : List (PageData × PageData) → List Nat →
    Except (List Nat) (List Nat × List Int)
  | [], file => Except.ok (file, [])
  | (l, r) :: rest, file =>
    let c := common_prefix_len l.max r.min
    if c + 1 ≤ r.min.length then
      let pivot := r.min.take (c + 1)
      let pointer := i32OfUsize file.length
      let file2 := file ++ write_varint_unsigned (pivot.length % 2 ^ 32) ++ pivot
      match writePivots rest file2 with
      | Except.ok (f3, ptrs) => Except.ok (f3, pointer :: ptrs)
      | Except.error f => Except.error f
    else Except.error file

/-- One iteration of the chunk loop in `write_search_tree`. A one-element
chunk is passed up via `mem::take`, which leaves a defaulted descriptor in
the chunk that the rest of the loop body still processes (the source has
no `continue`). -/
def writeChunk (chunk : List PageData) (file : List Nat) :
    Except (List Nat) (List Nat × List PageData) :=
  let passedUp := if chunk.length = 1 then [chunk.headD default] else []
  let chunk2 := if chunk.length = 1 then [(default : PageData)] else chunk
  match writePivots (chunk2.zip chunk2.tail) file with
  | Except.error f => Except.error f
  | Except.ok (file2, pivotPtrs) =>
    let page_pointer := i32OfUsize file2.length
    let file3 := file2 ++ [chunk2.length % 256] ++ pivotPtrs.flatMap i32be ++
      chunk2.flatMap (fun c => i32be c.pointer)
    let newPage : PageData :=
      { min := (chunk2.headD default).min, max := (chunk2.headD default).max,
        pointer := page_pointer }
    Except.ok (file3, passedUp ++ [newPage])

/-- The chunk loop of `write_search_tree` over all chunks of one level. -/
def writeChunks : List (List PageData) → List Nat →
    Except (List Nat) (List Nat × List PageData)
  | [], file => Except.ok (file, [])
  | c :: cs, file =>
    match writeChunk c file with
    | Except.error f => Except.error f
    | Except.ok (f2, pages) =>
      match writeChunks cs f2 with
      | Except.error f => Except.error f
      | Except.ok (f3, pages2) => Except.ok (f3, pages ++ pages2)

/-- `SstWriter::write_search_tree`: recursively group a level's pages into
chunks of up to 64 and emit a parent search page per chunk until a single
descriptor remains; its pointer is the root. `fuel` bounds the recursion
depth (each level is strictly smaller; callers pass `children.length`).
An `error` models a panic, carrying the bytes written so far. -/
def write_search_tree : Nat → List PageData → List Nat →
    Except (List Nat) (List Nat × Int)
  | _, [child], file => Except.ok (file, child.pointer)
  | _, [], file => Except.error file
  | 0, _, file => Except.error file
  | fuel + 1, children, file =>
    match writeChunks (chunks64 children) file with
    | Except.error f => Except.error f
    | Except.ok (f2, child_pages) => write_search_tree fuel child_pages f2

/-- `SstWriter::finish`: close the current page, write the terminator,
build the search tree, write the footer. Returns the final file bytes
(an `error` models a panic during tree construction). -/
def SstWriter.finish (s : SstWriter) : Except (List Nat) (List Nat) :=
  let s2 := if s.page_offset ≠ 0 then
      { s with
        data_pages := s.data_pages ++ [s.current_page]
        current_page := default }
    else s
  if s2.data_pages.isEmpty then
    let p : Int := -(i32OfUsize s2.file.length)
    Except.ok (s2.file ++ [0, 0] ++ i32be p ++ [0, 1])
  else
    match write_search_tree s2.data_pages.length s2.data_pages (s2.file ++ [0, 0]) with
    | Except.error f => Except.error f
    | Except.ok (f2, root) => Except.ok (f2 ++ i32be root ++ [0, 1])

/-- Push a whole record sequence in order. -/
def pushRecords (s : SstWriter) (rs : List (List Nat × List Nat)) : SstWriter :=
  rs.foldl (fun st r => st.push_record r.1 r.2) s

/-- Absolute-offset read of `n` bytes from the view
(`&self.data[off..off+n]`); `none` models the out-of-bounds panic. -/
def readBytesAt (data : List Nat) (off n : Nat) : Option (List Nat) :=
  if off + n ≤ data.length then some ((data.drop off).take n) else none

/-- `i32::from_be_bytes`: reinterpret four big-endian bytes as a signed
32-bit integer. -/
def i32OfBytes (b : List Nat) : Int :=
  let u := fromBytesBE b
  if u < 2 ^ 31 then (u : Int) else (u : Int) - 2 ^ 32

/-- State of `SstReader` over a byte view: `next_position` is the suffix
of the view starting at the next record (the source keeps a transmuted
slice), `key_value` the current record. -/
structure SstReader where
  data : List Nat
  next_position : Option (List Nat)
  key_value : Option (List Nat × List Nat)
deriving Repr, DecidableEq

/-- `SstReader::new`. -/
def SstReader.new (data : List Nat) : SstReader := ⟨data, none, none⟩

/-- `SstReader::get`. -/
def SstReader.get (r : SstReader) : Option (List Nat × List Nat) := r.key_value

/-- `SstReader::advance`: decode the record at `next_position`; a
zero/zero length pair is the terminator and clears the cursor. `none`
models a decoding panic on a corrupt buffer. -/
def SstReader.advance (r : SstReader) : Option SstReader :=
  match r.next_position with
  | none => some { r with key_value := none }
  | some buffer =>
    match read_varint_unsigned buffer with
    | none => none
    | some (key_len, b1) =>
      match read_varint_unsigned b1 with
      | none => none
      | some (val_len, b2) =>
        if key_len = 0 ∧ val_len = 0 then
          some { r with key_value := none, next_position := none }
        else if key_len + val_len ≤ b2.length then
          some { r with
            key_value := some (b2.take key_len, (b2.drop key_len).take val_len)
            next_position := some (b2.drop (key_len + val_len)) }
        else none

/-- The linear scan of `walk_from` over the data section: decode records
until the first with key ≥ the sought key (returning the new
`(next_position, key_value)`) or the terminator (clearing both). `fuel`
bounds the loop (each step consumes at least two bytes; callers pass more
than the buffer length). -/
def scanData : Nat → List Nat → List Nat →
    Option (Option (List Nat) × Option (List Nat × List Nat))
  | 0, _, _ => none
  | fuel + 1, buffer, key =>
    match read_varint_unsigned buffer with
    | none => none
    | some (key_len, b1) =>
      match read_varint_unsigned b1 with
      | none => none
      | some (val_len, b2) =>
        if key_len = 0 ∧ val_len = 0 then some (none, none)
        else if key_len + val_len ≤ b2.length then
          let key_data := b2.take key_len
          if bytesLe key key_data then
            some (some (b2.drop (key_len + val_len)),
              some (key_data, (b2.drop key_len).take val_len))
          else scanData fuel (b2.drop (key_len + val_len)) key
        else none

/-- The custom `binary_search` loop from `sst_reader.rs`: narrow
`[left, right]` treating `Ordering::Greater` as "go left" and everything
else as "go right". `fuel` bounds the loop (the interval shrinks each
step). -/
def bsearchLoop : Nat → (Nat → Option Ordering) → Nat → Nat → Option Nat
  | 0, _, left, right => if left = right then some left else none
  | fuel + 1, f, left, right =>
    if left = right then some left
    else
      let mid := (left + right) / 2
      match f mid with
      | none => none
      | some Ordering.gt => bsearchLoop fuel f left mid
      | some _ => bsearchLoop fuel f (mid + 1) right

/-- `binary_search(size, f)`: `size` is the child count (one more than the
number of pivots); `size = 0` models the `size - 1` underflow panic. -/
def binary_search (size : Nat) (f : Nat → Option Ordering) : Option Nat :=
  if size = 0 then none else bsearchLoop size f 0 (size - 1)

/-- The pivot comparison closure inside `walk_from`: fetch the pivot
pointer at `pivot_idx`, decode the length-prefixed pivot, compare it with
the sought key. -/
def pivotCmp (data : List Nat) (pivot_ptr_base : Nat) (key : List Nat)
    (pivot_idx : Nat) : Option Ordering :=
  match readBytesAt data (pivot_idx * 4 + pivot_ptr_base) 4 with
  | none => none
  | some pb =>
    let pivot_pointer := fromBytesBE pb
    if pivot_pointer ≤ data.length then
      match read_varint_unsigned (data.drop pivot_pointer) with
      | none => none
      | some (pivot_len, pbuf) =>
        if pivot_len ≤ pbuf.length then some (byteCmp (pbuf.take pivot_len) key)
        else none
    else none

/-- `SstReader::walk_from`: negative pointers scan the data section,
non-negative pointers binary-search a search page and recurse into the
chosen child. Returns the new `(next_position, key_value)`; `none` models
a panic (or fuel exhaustion on a cyclic corrupt file). -/
def walk_from : Nat → List Nat → Int → List Nat →
    Option (Option (List Nat) × Option (List Nat × List Nat))
  | 0, _, _, _ => none
  | fuel + 1, data, fromPtr, key =>
    if fromPtr < 0 then
      let ptr := (-fromPtr).toNat
      if ptr ≤ data.length then scanData (data.length + 1) (data.drop ptr) key
      else none
    else
      let fromN := fromPtr.toNat
      match data.get? fromN with
      | none => none
      | some child_count =>
        let pivot_ptr_base := fromN + 1
        let child_ptr_base := (child_count - 1) * 4 + pivot_ptr_base
        match binary_search child_count (pivotCmp data pivot_ptr_base key) with
        | none => none
        | some child_idx =>
          match readBytesAt data (child_idx * 4 + child_ptr_base) 4 with
          | none => none
          | some cb => walk_from fuel data (i32OfBytes cb) key

/-- `SstReader::seek`: read the root pointer from the footer, walk the
tree from it, install the resulting cursor. -/
def SstReader.seek (r : SstReader) (key : List Nat) : Option SstReader :=
  let data_len := r.data.length
  if 6 ≤ data_len then
    match readBytesAt r.data (data_len - 6) 4 with
    | none => none
    | some pb =>
      match walk_from (data_len + 1) r.data (i32OfBytes pb) key with
      | none => none
      | some (np, kv) => some { r with next_position := np, key_value := kv }
  else none

theorem bytesLe_refl (a : List Nat) : bytesLe a a := by
  unfold bytesLe
  rw [byteCmp_refl]
  intro h; cases h

theorem bytesLt_le_trans {a b c : List Nat} (h1 : bytesLt a b) (h2 : bytesLe b c) :
    bytesLt a c := by
  rcases bytesLe_iff.mp h2 with h | h
  · exact bytesLt_trans h1 h
  · subst h; exact h1

theorem bytesLe_lt_trans {a b c : List Nat} (h1 : bytesLe a b) (h2 : bytesLt b c) :
    bytesLt a c := by
  rcases bytesLe_iff.mp h1 with h | h
  · exact bytesLt_trans h h2
  · subst h; exact h2

theorem bytesLe_trans {a b c : List Nat} (h1 : bytesLe a b) (h2 : bytesLe b c) :
    bytesLe a c := by
  rcases bytesLe_iff.mp h1 with h | h
  · rcases bytesLe_iff.mp h2 with h2a | h2a
    · exact bytesLe_iff.mpr (Or.inl (bytesLt_trans h h2a))
    · subst h2a; exact h1
  · subst h; exact h2

/-- Well-ordered page-descriptor list: adjacent ranges strictly ascending
and each descriptor's `min ≤ max`. This is what `push_record` maintains
for strictly ascending record keys. -/
def pagesWf (l : List PageData) : Prop :=
  List.Chain' (fun p q => bytesLt p.max q.min) l ∧ ∀ p ∈ l, bytesLe p.min p.max

theorem pagesWf_head_lt {p : PageData} {l : List PageData}
    (h : pagesWf (p :: l)) {q : PageData} (hq : q ∈ l) : bytesLt p.max q.min := by
  induction l generalizing p with
  | nil => cases hq
  | cons r l' ih =>
    obtain ⟨hc, hm⟩ := h
    have hpr : bytesLt p.max r.min := (List.chain'_cons.mp hc).1
    rcases List.mem_cons.mp hq with hq | hq
    · subst hq; exact hpr
    · have hr : pagesWf (r :: l') :=
        ⟨(List.chain'_cons.mp hc).2, fun x hx => hm x (List.mem_cons_of_mem p hx)⟩
      have hrq := ih hr hq
      have hrmin : bytesLe r.min r.max := hm r (by simp)
      exact bytesLt_le_trans hpr (bytesLe_iff.mpr (Or.inl (bytesLe_lt_trans hrmin hrq)))

/-- The windows of a chain are exactly the adjacent pairs. -/
theorem chain'_zip_tail {α : Type} {R : α → α → Prop} :
    ∀ {l : List α}, List.Chain' R l → ∀ pr ∈ l.zip l.tail, R pr.1 pr.2 := by
  intro l
  induction l with
  | nil => intro _ pr hpr; cases hpr
  | cons a l ih =>
    intro h pr hpr
    cases l with
    | nil => cases hpr
    | cons b l' =>
      obtain ⟨hab, htl⟩ := List.chain'_cons.mp h
      rcases List.mem_cons.mp hpr with hpr | hpr
      · subst hpr; exact hab
      · exact ih htl pr hpr

/-- If every window is safely separable, the pivot loop succeeds. -/
theorem writePivots_ok :
    ∀ (pairs : List (PageData × PageData)) (file : List Nat),
    (∀ pr ∈ pairs, bytesLt pr.1.max pr.2.min) →
    ∃ f2 ptrs, writePivots pairs file = Except.ok (f2, ptrs) := by
  intro pairs
  induction pairs with
  | nil => intro file _; exact ⟨file, [], rfl⟩
  | cons pr rest ih =>
    intro file h
    have hlt : bytesLt pr.1.max pr.2.min := h pr (by simp)
    have hguard := (pivot_minimal_separator pr.1.max pr.2.min hlt).1
    obtain ⟨f2, ptrs, hrec⟩ := ih
      (file ++ write_varint_unsigned ((pr.2.min.take (common_prefix_len pr.1.max pr.2.min + 1)).length % 2 ^ 32) ++ pr.2.min.take (common_prefix_len pr.1.max pr.2.min + 1))
      (fun x hx => h x (List.mem_cons_of_mem pr hx))
    refine ⟨f2, i32OfUsize file.length :: ptrs, ?_⟩
    cases pr with
    | mk l r =>
      simp only [writePivots, if_pos hguard]
      rw [hrec]

theorem chunks64_nil : chunks64 [] = [] := rfl

theorem chunks64_eq {l : List PageData} (h : l ≠ []) :
    chunks64 l = l.take 64 :: chunks64 (l.drop 64) := by
  cases l with
  | nil => exact absurd rfl h
  | cons x t =>
    show chunks64Fuel (x :: t).length (x :: t) = _
    simp only [List.length_cons, chunks64Fuel]
    unfold chunks64
    rw [chunks64Fuel_irrel t.length ((x :: t).drop 64).length ((x :: t).drop 64)
      (by simp only [List.length_drop, List.length_cons]; omega) (le_refl _)]

theorem common_prefix_len_nil_right (a : List Nat) : common_prefix_len a [] = 0 := by
  cases a <;> rfl

/-- A one-element chunk: the descriptor is passed up, but the loop body
still runs on the `mem::take`-defaulted chunk, emitting a one-child page
`[1, 0, 0, 0, 0]` (child count 1, child pointer 0) and a second, empty
descriptor. -/
theorem writeChunk_singleton (page : PageData) (file : List Nat) :
    writeChunk [page] file =
      Except.ok (file ++ [1, 0, 0, 0, 0], [page, ⟨[], [], i32OfUsize file.length⟩]) := by
  have h0 : i32be 0 = [0, 0, 0, 0] := rfl
  simp [writeChunk, writePivots, h0]
  exact ⟨h0, rfl, rfl⟩

theorem writeChunk_ok (chunk : List PageData) (file : List Nat)
    (hlen : chunk.length ≠ 1)
    (hwf : ∀ pr ∈ chunk.zip chunk.tail, bytesLt pr.1.max pr.2.min) :
    ∃ f2 ptr, writeChunk chunk file =
      Except.ok (f2, [⟨(chunk.headD default).min, (chunk.headD default).max, ptr⟩]) := by
  obtain ⟨fp, ptrs, hpiv⟩ := writePivots_ok (chunk.zip chunk.tail) file hwf
  refine ⟨fp ++ [chunk.length % 256] ++ ptrs.flatMap i32be ++
    chunk.flatMap (fun c => i32be c.pointer), i32OfUsize fp.length, ?_⟩
  unfold writeChunk
  simp only [if_neg hlen, hpiv, List.nil_append]

theorem writeChunk_error (chunk : List PageData) (file f : List Nat)
    (hlen : chunk.length ≠ 1)
    (hpiv : writePivots (chunk.zip chunk.tail) file = Except.error f) :
    writeChunk chunk file = Except.error f := by
  unfold writeChunk
  simp only [if_neg hlen, hpiv]

/-- The 65-descriptor failure: grouping 65 pages chunks them as 64+1; the
singleton chunk leaves behind an empty descriptor whose `min` is `[]`, and
the next level's pivot slice `right.min[..1]` is out of bounds. -/
theorem write_search_tree_err_65 (pages : List PageData) (file : List Nat)
    (fuel : Nat) (hlen : pages.length = 65) (hfuel : 2 ≤ fuel) (hwf : pagesWf pages) :
    ∃ f, write_search_tree fuel pages file = Except.error f := by
  obtain ⟨fu, rfl⟩ : ∃ fu, fuel = fu + 2 := ⟨fuel - 2, by omega⟩
  rcases pages with _ | ⟨p0, _ | ⟨p1, rest⟩⟩
  · simp at hlen
  · simp at hlen
  · -- decompose into the 64-chunk and the trailing singleton
    set pages := p0 :: p1 :: rest with hpages
    have hne : pages ≠ [] := by simp [hpages]
    obtain ⟨q, hq⟩ : ∃ q, pages.drop 64 = [q] := by
      have : (pages.drop 64).length = 1 := by
        rw [List.length_drop, hlen]
      exact List.length_eq_one.mp this
    have hchunks : chunks64 pages = [pages.take 64, [q]] := by
      rw [chunks64_eq hne, hq, chunks64_eq (by simp)]
      simp [chunks64_nil]
    -- the 64-chunk succeeds
    have htake_len : (pages.take 64).length = 64 := by
      rw [List.length_take, hlen]
      omega
    have hwf_take : ∀ pr ∈ (pages.take 64).zip (pages.take 64).tail,
        bytesLt pr.1.max pr.2.min := by
      intro pr hpr
      have hT : List.Chain' (fun p q => bytesLt p.max q.min) (pages.take 64) :=
        List.Chain'.take hwf.1 64
      exact chain'_zip_tail hT pr hpr
    obtain ⟨f2, ptr, hc1⟩ := writeChunk_ok (pages.take 64) file (by omega) hwf_take
    -- head of the take-chunk is the head of pages
    have hhead : (pages.take 64).headD default = p0 := by
      simp [hpages]
    -- the singleton chunk emits the junk page
    have hc2 := writeChunk_singleton q f2
    -- assemble the chunk loop
    have hloop : writeChunks (chunks64 pages) file =
        Except.ok (f2 ++ [1, 0, 0, 0, 0],
          [⟨p0.min, p0.max, ptr⟩, q, ⟨[], [], i32OfUsize f2.length⟩]) := by
      rw [hchunks]
      simp only [writeChunks, hc1, hc2, hhead, List.nil_append, List.append_nil,
        List.cons_append]
    -- the next level hits the empty-min window and panics
    have hq_mem : q ∈ p1 :: rest := by
      have hsub : pages.drop 64 ⊆ p1 :: rest := by
        rw [hpages]
        intro x hx
        exact (List.drop_subset 63 (p1 :: rest)) (by simpa using hx)
      exact hsub (by simp [hq])
    have hp0q : bytesLt p0.max q.min := pagesWf_head_lt (hpages ▸ hwf) hq_mem
    have hguard1 := (pivot_minimal_separator p0.max q.min hp0q).1
    have hpiv_err : ∃ ferr, writePivots
        [((⟨p0.min, p0.max, ptr⟩ : PageData), q),
          (q, (⟨[], [], i32OfUsize f2.length⟩ : PageData))] (f2 ++ [1, 0, 0, 0, 0]) =
        Except.error ferr := by
      unfold writePivots
      rw [if_pos hguard1]
      simp [writePivots, common_prefix_len_nil_right]
    obtain ⟨ferr, herr⟩ := hpiv_err
    refine ⟨ferr, ?_⟩
    show write_search_tree (fu + 1 + 1) pages file = Except.error ferr
    have hstep1 : write_search_tree (fu + 1 + 1) pages file =
        match writeChunks (chunks64 pages) file with
        | Except.error f => Except.error f
        | Except.ok (f2, child_pages) => write_search_tree (fu + 1) child_pages f2 := by
      rw [hpages]
      rfl
    rw [hstep1, hloop]
    show write_search_tree (fu + 1)
      [⟨p0.min, p0.max, ptr⟩, q, ⟨[], [], i32OfUsize f2.length⟩] (f2 ++ [1, 0, 0, 0, 0]) =
      Except.error ferr
    have hstep2 : write_search_tree (fu + 1)
        [⟨p0.min, p0.max, ptr⟩, q, ⟨[], [], i32OfUsize f2.length⟩] (f2 ++ [1, 0, 0, 0, 0]) =
        match writeChunks (chunks64 [⟨p0.min, p0.max, ptr⟩, q,
            ⟨[], [], i32OfUsize f2.length⟩]) (f2 ++ [1, 0, 0, 0, 0]) with
        | Except.error f => Except.error f
        | Except.ok (f3, child_pages) => write_search_tree fu child_pages f3 := rfl
    rw [hstep2]
    have hchunks2 : chunks64 [(⟨p0.min, p0.max, ptr⟩ : PageData), q,
        ⟨[], [], i32OfUsize f2.length⟩] =
        [[⟨p0.min, p0.max, ptr⟩, q, ⟨[], [], i32OfUsize f2.length⟩]] := by
      rw [chunks64_eq (by simp)]
      simp [chunks64_nil]
    rw [hchunks2]
    unfold writeChunks
    rw [writeChunk_error [⟨p0.min, p0.max, ptr⟩, q, ⟨[], [], i32OfUsize f2.length⟩]
      (f2 ++ [1, 0, 0, 0, 0]) ferr (by simp) herr]


/-- The record bytes appended by one `push_record`. -/
def recBytes (k v : List Nat) : List Nat :=
  write_varint_unsigned (k.length % 2 ^ 32) ++ write_varint_unsigned (v.length % 2 ^ 32) ++
    k ++ v

theorem push_record_eq_zero (s : SstWriter) (k v : List Nat) (h : s.page_offset = 0) :
    s.push_record k v =
      { file := s.file ++ recBytes k v, data_pages := s.data_pages, page_offset := 1,
        current_page := ⟨k, k, -(i32OfUsize s.size)⟩ } := by
  unfold SstWriter.push_record recBytes
  rw [h]
  simp [List.append_assoc]

theorem push_record_eq_pos_close (s : SstWriter) (k v : List Nat)
    (h0 : s.page_offset ≠ 0) (h16 : s.page_offset + 1 = 16) :
    s.push_record k v =
      { file := s.file ++ recBytes k v,
        data_pages := s.data_pages ++ [{ s.current_page with max := k }],
        page_offset := 0, current_page := default } := by
  simp [SstWriter.push_record, recBytes, h0, h16, List.append_assoc]

theorem push_record_eq_pos_open (s : SstWriter) (k v : List Nat)
    (h0 : s.page_offset ≠ 0) (h16 : s.page_offset + 1 ≠ 16) :
    s.push_record k v =
      { file := s.file ++ recBytes k v, data_pages := s.data_pages,
        page_offset := s.page_offset + 1,
        current_page := { s.current_page with max := k } } := by
  simp [SstWriter.push_record, recBytes, h0, h16, List.append_assoc]

/-- Invariant maintained by `push_record` under strictly ascending keys:
the closed pages plus the open page form a well-ordered descriptor list
whose last `max` is the last pushed key. -/
def SstWriter.Inv (s : SstWriter) (klast : List Nat) : Prop :=
  s.page_offset < 16 ∧
  (s.page_offset = 0 →
    pagesWf s.data_pages ∧ s.data_pages ≠ [] ∧
    (∃ p, s.data_pages.getLast? = some p ∧ p.max = klast)) ∧
  (s.page_offset ≠ 0 →
    pagesWf (s.data_pages ++ [s.current_page]) ∧ s.current_page.max = klast)

theorem pagesWf_append_singleton {l : List PageData} {c : PageData}
    (hwf : pagesWf l) (hminle : bytesLe c.min c.max)
    (hlink : ∀ p, l.getLast? = some p → bytesLt p.max c.min) :
    pagesWf (l ++ [c]) := by
  constructor
  · refine List.Chain'.append hwf.1 (List.chain'_singleton _) ?_
    intro x hx y hy
    simp only [List.head?_cons, Option.mem_def, Option.some.injEq] at hy
    subst hy
    exact hlink x hx
  · intro x hx
    rcases List.mem_append.mp hx with hx | hx
    · exact hwf.2 x hx
    · simp only [List.mem_singleton] at hx
      subst hx
      exact hminle

/-- Replacing the last element's `max` preserves well-orderedness as long
as `min ≤ new max` still holds for it. -/
theorem pagesWf_update_last_max {l : List PageData} {c : PageData} {k : List Nat}
    (hwf : pagesWf (l ++ [c])) (hk : bytesLe c.min k) :
    pagesWf (l ++ [{ c with max := k }]) := by
  obtain ⟨hch, hml⟩ := hwf
  rw [List.chain'_append] at hch
  obtain ⟨hch1, _, hlink⟩ := hch
  constructor
  · rw [List.chain'_append]
    refine ⟨hch1, List.chain'_singleton _, ?_⟩
    intro x hx y hy
    simp only [List.head?_cons, Option.mem_def, Option.some.injEq] at hy
    subst hy
    exact hlink x hx c (by simp)
  · intro x hx
    rcases List.mem_append.mp hx with hx | hx
    · exact hml x (List.mem_append.mpr (Or.inl hx))
    · simp only [List.mem_singleton] at hx
      subst hx
      exact hk

theorem push_record_inv {s : SstWriter} {klast k : List Nat} (v : List Nat)
    (h : SstWriter.Inv s klast) (hlt : bytesLt klast k) :
    SstWriter.Inv (s.push_record k v) k := by
  obtain ⟨hoff, h0, h1⟩ := h
  by_cases ho : s.page_offset = 0
  · obtain ⟨hwf, hne, p, hlast, hpmax⟩ := h0 ho
    rw [push_record_eq_zero s k v ho]
    refine ⟨by norm_num, fun hc => absurd (show (1 : Nat) = 0 from hc) (by norm_num),
      fun _ => ⟨?_, rfl⟩⟩
    refine pagesWf_append_singleton hwf (bytesLe_refl k) ?_
    intro x hx
    rw [hlast] at hx
    cases hx
    rw [hpmax]
    exact hlt
  · obtain ⟨hwf, hmax⟩ := h1 ho
    have hcmin : bytesLe s.current_page.min k := by
      have h2 : bytesLe s.current_page.min s.current_page.max :=
        hwf.2 s.current_page (List.mem_append.mpr (Or.inr (by simp)))
      exact bytesLe_trans h2 (bytesLe_iff.mpr (Or.inl (hmax ▸ hlt)))
    have hwf2 := pagesWf_update_last_max hwf hcmin
    by_cases h16 : s.page_offset + 1 = 16
    · rw [push_record_eq_pos_close s k v ho h16]
      refine ⟨by norm_num, fun _ => ⟨hwf2, by simp, ?_⟩,
        fun hc => absurd rfl hc⟩
      exact ⟨{ s.current_page with max := k }, by simp, rfl⟩
    · rw [push_record_eq_pos_open s k v ho h16]
      refine ⟨show s.page_offset + 1 < 16 by omega,
        fun hc => absurd (show s.page_offset + 1 = 0 from hc) (by omega),
        fun _ => ⟨hwf2, rfl⟩⟩

theorem push_record_inv_base (k v : List Nat) :
    SstWriter.Inv (SstWriter.new.push_record k v) k := by
  rw [push_record_eq_zero SstWriter.new k v rfl]
  refine ⟨by norm_num, fun hc => absurd (show (1 : Nat) = 0 from hc) (by norm_num),
    fun _ => ⟨⟨?_, ?_⟩, rfl⟩⟩
  · show List.Chain' _ (SstWriter.new.data_pages ++ [_])
    simp only [SstWriter.new, List.nil_append]
    exact List.chain'_singleton _
  · intro p hp
    simp only [SstWriter.new, List.nil_append, List.mem_singleton] at hp
    subst hp
    exact bytesLe_refl k

theorem pushRecords_inv :
    ∀ (rs : List (List Nat × List Nat)) (s : SstWriter) (klast : List Nat),
    SstWriter.Inv s klast → List.Chain' bytesLt (klast :: rs.map Prod.fst) →
    ∃ k2, SstWriter.Inv (pushRecords s rs) k2 := by
  intro rs
  induction rs with
  | nil => intro s klast h _; exact ⟨klast, h⟩
  | cons r rest ih =>
    intro s klast h hchain
    simp only [List.map_cons, List.chain'_cons] at hchain
    exact ih (s.push_record r.1 r.2) r.1 (push_record_inv r.2 h hchain.1) hchain.2

theorem pushRecords_count :
    ∀ (rs : List (List Nat × List Nat)) (s : SstWriter), s.page_offset < 16 →
    (pushRecords s rs).data_pages.length * 16 + (pushRecords s rs).page_offset =
      s.data_pages.length * 16 + s.page_offset + rs.length ∧
    (pushRecords s rs).page_offset < 16 := by
  intro rs
  induction rs with
  | nil => intro s h; exact ⟨by simp [pushRecords], h⟩
  | cons r rest ih =>
    intro s h
    have hps : pushRecords s (r :: rest) = pushRecords (s.push_record r.1 r.2) rest := rfl
    rw [hps]
    by_cases h16 : s.page_offset + 1 = 16
    · have ho : s.page_offset ≠ 0 := by omega
      have key := push_record_eq_pos_close s r.1 r.2 ho h16
      obtain ⟨hc, hof⟩ := ih (s.push_record r.1 r.2) (by rw [key]; norm_num)
      rw [key] at hc hof
      simp only [List.length_append, List.length_singleton] at hc
      rw [key]
      refine ⟨?_, hof⟩
      rw [hc]
      simp only [List.length_cons]
      omega
    · by_cases ho : s.page_offset = 0
      · have key := push_record_eq_zero s r.1 r.2 ho
        obtain ⟨hc, hof⟩ := ih (s.push_record r.1 r.2) (by rw [key]; norm_num)
        rw [key] at hc hof
        rw [key]
        refine ⟨?_, hof⟩
        rw [hc]
        simp only [List.length_cons]
        omega
      · have key := push_record_eq_pos_open s r.1 r.2 ho h16
        obtain ⟨hc, hof⟩ := ih (s.push_record r.1 r.2) (by rw [key]; show s.page_offset + 1 < 16; omega)
        rw [key] at hc hof
        rw [key]
        refine ⟨?_, hof⟩
        rw [hc]
        simp only [List.length_cons]
        omega

theorem finish_eq_tree (s : SstWriter) (h0 : s.page_offset ≠ 0) :
    s.finish =
      match write_search_tree (s.data_pages ++ [s.current_page]).length
          (s.data_pages ++ [s.current_page]) (s.file ++ [0, 0]) with
      | Except.error f => Except.error f
      | Except.ok (f2, root) => Except.ok (f2 ++ i32be root ++ [0, 1]) := by
  simp [SstWriter.finish, h0]

/-- Claim C1 (evaluation of the code at the failing input): for every
sequence of 1025 records in strictly ascending key order, `finish` panics
while building the search tree (65 leaf pages chunk as 64+1; the
pass-up of the lone 65th descriptor leaves a defaulted descriptor behind
and the next level's pivot slice `right.min[..1]` is out of bounds), so
no SST is produced at all — `seek`/`get` never get to run. -/
theorem finish_panics_at_1025_records (rs : List (List Nat × List Nat))
    (hlen : rs.length = 1025)
    (hasc : List.Chain' bytesLt (rs.map Prod.fst)) :
    ∃ f, (pushRecords SstWriter.new rs).finish = Except.error f := by
  cases rs with
  | nil => simp at hlen
  | cons r rest =>
    have hstep : pushRecords SstWriter.new (r :: rest) =
        pushRecords (SstWriter.new.push_record r.1 r.2) rest := rfl
    rw [hstep]
    simp only [List.map_cons] at hasc
    obtain ⟨k2, hinv⟩ := pushRecords_inv rest (SstWriter.new.push_record r.1 r.2) r.1
      (push_record_inv_base r.1 r.2) hasc
    have hbase : (SstWriter.new.push_record r.1 r.2).data_pages = [] ∧
        (SstWriter.new.push_record r.1 r.2).page_offset = 1 := by
      rw [push_record_eq_zero SstWriter.new r.1 r.2 rfl]
      exact ⟨rfl, rfl⟩
    obtain ⟨hcount, hcoff⟩ := pushRecords_count rest (SstWriter.new.push_record r.1 r.2)
      (by rw [hbase.2]; norm_num)
    rw [hbase.1, hbase.2] at hcount
    have hrest : rest.length = 1024 := by
      simpa using hlen
    rw [hrest] at hcount
    have hpages : (pushRecords (SstWriter.new.push_record r.1 r.2) rest).data_pages.length = 64 ∧
        (pushRecords (SstWriter.new.push_record r.1 r.2) rest).page_offset = 1 := by
      simp only [List.length_nil] at hcount
      omega
    obtain ⟨hoff16, hzero, hpos⟩ := hinv
    obtain ⟨hwf, _⟩ := hpos (by rw [hpages.2]; norm_num)
    have hlen65 : ((pushRecords (SstWriter.new.push_record r.1 r.2) rest).data_pages ++
        [(pushRecords (SstWriter.new.push_record r.1 r.2) rest).current_page]).length = 65 := by
      rw [List.length_append, hpages.1]
      rfl
    obtain ⟨ferr, herr⟩ := write_search_tree_err_65
      ((pushRecords (SstWriter.new.push_record r.1 r.2) rest).data_pages ++
        [(pushRecords (SstWriter.new.push_record r.1 r.2) rest).current_page])
      ((pushRecords (SstWriter.new.push_record r.1 r.2) rest).file ++ [0, 0])
      ((pushRecords (SstWriter.new.push_record r.1 r.2) rest).data_pages ++
        [(pushRecords (SstWriter.new.push_record r.1 r.2) rest).current_page]).length
      hlen65 (by rw [hlen65]; norm_num) hwf
    refine ⟨ferr, ?_⟩
    rw [finish_eq_tree _ (by rw [hpages.2]; norm_num), herr]

/-- 1025 records with strictly ascending two-byte keys. -/
def c1Records : List (List Nat × List Nat) :=
  (List.range 1025).map (fun i => ([i / 256, i % 256], []))

/-- Executable strict-ascendance check used to discharge `Chain'`
hypotheses on concrete inputs. -/
def ascendingB : List (List Nat) → Bool
  | a :: b :: rest => decide (bytesLt a b) && ascendingB (b :: rest)
  | _ => true

theorem ascendingB_chain' : ∀ l, ascendingB l = true → List.Chain' bytesLt l := by
  intro l
  induction l with
  | nil => intro _; exact List.chain'_nil
  | cons a rest ih =>
    intro h
    cases rest with
    | nil => exact List.chain'_singleton a
    | cons b rest2 =>
      simp only [ascendingB, Bool.and_eq_true, decide_eq_true_eq] at h
      exact List.chain'_cons.mpr ⟨h.1, ih (by simp [ascendingB, h.2])⟩

set_option maxRecDepth 4000 in
/-- Witness for C1: the hypotheses hold at the concrete 1025-record
input. -/
theorem finish_panics_at_1025_records_witness :
    ∃ f, (pushRecords SstWriter.new c1Records).finish = Except.error f :=
  finish_panics_at_1025_records c1Records (by simp [c1Records])
    (ascendingB_chain' _ (by decide))

/-- Executable check for an embedded one-child search page: a run
`[1, 0, 0, 0, 0]` (child count 1, zero pivots, child pointer 0). -/
def hasOneChildPage : List Nat → Bool
  | [] => false
  | x :: t => (decide ((x :: t).take 5 = [1, 0, 0, 0, 0])) || hasOneChildPage t

/-- Error-payload accessor (the bytes written before the modelled
panic). -/
def errBytesOf : Except (List Nat) (List Nat × Int) → List Nat
  | Except.error f => f
  | Except.ok _ => []

/-- 65 well-ordered page descriptors (as produced by 1025 pushed
records). -/
def c2Pages : List PageData :=
  (List.range 65).map (fun i => (⟨[i], [i], -(1 + (i : Int))⟩ : PageData))

set_option maxRecDepth 20000 in
/-- Claim C2: a one-element chunk passes its descriptor up, but the
source (lacking a `continue`) still emits a search page for it — a
one-child page with child pointer 0 — and passes up a second, defaulted
descriptor, so construction with a 65-page level panics instead of
yielding pages with 2..64 children. -/
theorem one_child_chunk_still_emits_page :
    (∀ (page : PageData) (file : List Nat),
      writeChunk [page] file =
        Except.ok (file ++ [1, 0, 0, 0, 0],
          [page, ⟨[], [], i32OfUsize file.length⟩])) ∧
    (write_search_tree 65 c2Pages []).isOk = false ∧
    hasOneChildPage (errBytesOf (write_search_tree 65 c2Pages [])) = true := by
  refine ⟨fun page file => ?_, by decide, by decide⟩
  have h0 : i32be 0 = [0, 0, 0, 0] := rfl
  simp [writeChunk, writePivots, h0]
  exact ⟨h0, rfl, rfl⟩

/-- Claim C6 counterexample: pushing key `[97]` after key `[98]` (out of
order) is accepted without any panic or error — the record is written and
`finish` succeeds. -/
theorem push_out_of_order_silently_accepted :
    ((SstWriter.new.push_record [98] [49]).push_record [97] [50]).file =
      sstHeader ++ [1, 1, 98, 49] ++ [1, 1, 97, 50] ∧
    (((SstWriter.new.push_record [98] [49]).push_record [97] [50]).finish).isOk = true := by
  decide

/-- Claim C6 amended: `push_record` performs no ordering check at all — for
every writer state and key it returns normally and appends the record
encoding, whether or not the key exceeds the previous one. -/
theorem push_record_never_signals (s : SstWriter) (k v : List Nat) :
    (s.push_record k v).file = s.file ++ recBytes k v := by
  by_cases ho : s.page_offset = 0
  · rw [push_record_eq_zero s k v ho]
  · by_cases h16 : s.page_offset + 1 = 16
    · rw [push_record_eq_pos_close s k v ho h16]
    · rw [push_record_eq_pos_open s k v ho h16]

/-- The file produced by a zero-record `finish`: header, terminator, root
pointer = negated terminator offset (the header length 26), version. -/
def emptySstFile : List Nat :=
  sstHeader ++ [0, 0] ++ i32be (-(sstHeader.length : Int)) ++ [0, 1]

/-- Claim C8: a zero-record `finish` writes only the two-byte terminator
after the header, stores as root pointer the negation of the terminator's
offset (the header length, 26), and `seek` on such a file clears the
cursor for every sought key, so `get` returns `None`. -/
theorem empty_sst_seek_returns_none :
    SstWriter.new.finish = Except.ok emptySstFile ∧
    (∀ key, (SstReader.new emptySstFile).seek key =
      some (⟨emptySstFile, none, none⟩ : SstReader)) ∧
    (∀ key r2, (SstReader.new emptySstFile).seek key = some r2 → r2.get = none) := by
  refine ⟨rfl, fun key => rfl, fun key r2 h => ?_⟩
  have h2 : (some r2 : Option SstReader) = some ⟨emptySstFile, none, none⟩ := by
    rw [← h]
    rfl
  cases h2
  rfl

theorem scanData_no_empty_record :
    ∀ (fuel : Nat) (buffer key : List Nat) res,
    scanData fuel buffer key = some res →
    ∀ k v, res.2 = some (k, v) → ¬(k = [] ∧ v = []) := by
  intro fuel
  induction fuel with
  | zero => intro buffer key res h; simp [scanData] at h
  | succ fuel ih =>
    intro buffer key res h k v hres hkv
    simp only [scanData] at h
    rcases hr1 : read_varint_unsigned buffer with _ | ⟨kl, b1⟩
    · simp only [hr1] at h; simp at h
    · simp only [hr1] at h
      rcases hr2 : read_varint_unsigned b1 with _ | ⟨vl, b2⟩
      · simp only [hr2] at h; simp at h
      · simp only [hr2] at h
        by_cases hkv0 : kl = 0 ∧ vl = 0
        · rw [if_pos hkv0] at h
          cases h
          simp at hres
        · rw [if_neg hkv0] at h
          by_cases hg : kl + vl ≤ b2.length
          · rw [if_pos hg] at h
            by_cases hle : bytesLe key (b2.take kl)
            · rw [if_pos hle] at h
              cases h
              simp only [Option.some.injEq, Prod.mk.injEq] at hres
              obtain ⟨hk, hv⟩ := hres
              obtain ⟨hke, hve⟩ := hkv
              subst hke hve
              rw [List.take_eq_nil_iff] at hk
              have hkl0 : kl = 0 := by
                rcases hk with hk | hk
                · exact hk
                · subst hk; simp at hg; omega
              subst hkl0
              simp only [List.drop_zero] at hv
              rw [List.take_eq_nil_iff] at hv
              have hvl0 : vl = 0 := by
                rcases hv with hv | hv
                · exact hv
                · subst hv; simp at hg; omega
              exact hkv0 ⟨rfl, hvl0⟩
            · rw [if_neg hle] at h
              exact ih _ _ _ h k v hres hkv
          · rw [if_neg hg] at h
            cases h

theorem walk_from_no_empty_record :
    ∀ (fuel : Nat) (data : List Nat) (ptr : Int) (key : List Nat) res,
    walk_from fuel data ptr key = some res →
    ∀ k v, res.2 = some (k, v) → ¬(k = [] ∧ v = []) := by
  intro fuel
  induction fuel with
  | zero => intro data ptr key res h; simp [walk_from] at h
  | succ fuel ih =>
    intro data ptr key res h k v hres hkv
    simp only [walk_from] at h
    by_cases hneg : ptr < 0
    · rw [if_pos hneg] at h
      by_cases hb : (-ptr).toNat ≤ data.length
      · rw [if_pos hb] at h
        exact scanData_no_empty_record _ _ _ _ h k v hres hkv
      · rw [if_neg hb] at h
        cases h
    · rw [if_neg hneg] at h
      rcases hg : data.get? ptr.toNat with _ | cc
      · simp only [hg] at h; cases h
      · simp only [hg] at h
        rcases hbs : binary_search cc (pivotCmp data (ptr.toNat + 1) key) with _ | ci
        · simp only [hbs] at h; cases h
        · simp only [hbs] at h
          rcases hrb : readBytesAt data (ci * 4 + ((cc - 1) * 4 + (ptr.toNat + 1))) 4
            with _ | cb
          · simp only [hrb] at h; cases h
          · simp only [hrb] at h
            exact ih _ _ _ _ h k v hres hkv

theorem advance_no_empty_record (r r2 : SstReader) (h : r.advance = some r2) :
    r2.get ≠ some ([], []) := by
  intro hget
  unfold SstReader.advance at h
  rcases hnp : r.next_position with _ | buffer
  · simp only [hnp] at h
    cases h
    simp [SstReader.get] at hget
  · simp only [hnp] at h
    rcases hr1 : read_varint_unsigned buffer with _ | ⟨kl, b1⟩
    · simp only [hr1] at h; cases h
    · simp only [hr1] at h
      rcases hr2 : read_varint_unsigned b1 with _ | ⟨vl, b2⟩
      · simp only [hr2] at h; cases h
      · simp only [hr2] at h
        by_cases hkv0 : kl = 0 ∧ vl = 0
        · rw [if_pos hkv0] at h
          cases h
          simp [SstReader.get] at hget
        · rw [if_neg hkv0] at h
          by_cases hg : kl + vl ≤ b2.length
          · rw [if_pos hg] at h
            cases h
            simp only [SstReader.get, Option.some.injEq, Prod.mk.injEq] at hget
            obtain ⟨hk, hv⟩ := hget
            rw [List.take_eq_nil_iff] at hk
            have hkl0 : kl = 0 := by
              rcases hk with hk | hk
              · exact hk
              · subst hk; simp at hg; omega
            subst hkl0
            simp only [List.drop_zero] at hv
            rw [List.take_eq_nil_iff] at hv
            have hvl0 : vl = 0 := by
              rcases hv with hv | hv
              · exact hv
              · subst hv; simp at hg; omega
            exact hkv0 ⟨rfl, hvl0⟩
          · rw [if_neg hg] at h
            cases h

theorem seek_no_empty_record (r : SstReader) (key : List Nat) (r2 : SstReader)
    (h : r.seek key = some r2) : r2.get ≠ some ([], []) := by
  intro hget
  unfold SstReader.seek at h
  by_cases h6 : 6 ≤ r.data.length
  · rw [if_pos h6] at h
    rcases hrb : readBytesAt r.data (r.data.length - 6) 4 with _ | pb
    · simp only [hrb] at h; cases h
    · simp only [hrb] at h
      rcases hw : walk_from (r.data.length + 1) r.data (i32OfBytes pb) key with _ | res
      · simp only [hw] at h; cases h
      · simp only [hw] at h
        rcases res with ⟨np, kv⟩
        cases h
        simp only [SstReader.get] at hget
        exact walk_from_no_empty_record _ _ _ _ _ hw [] [] hget ⟨rfl, rfl⟩
  · simp only [if_neg h6] at h
    cases h

/-- The file produced by pushing the single record `([], [])` and
finishing: the record's encoding `[0, 0]` is byte-identical to the
terminator that follows it. -/
def lostRecordFile : List Nat :=
  sstHeader ++ [0, 0] ++ [0, 0] ++ [255, 255, 255, 230] ++ [0, 1]

/-- Claim C10: an empty-key/empty-value record is encoded exactly as the
end-of-data terminator, the reader can never return a record with both
key and value empty (seek and advance treat the pair of zero lengths as
end of data), and pushing `([], [])` as the first record yields a file on
which every seek immediately clears the cursor — the record is silently
lost. -/
theorem empty_record_encodes_as_terminator_and_is_lost :
    recBytes [] [] = [0, 0] ∧
    (∀ (r r2 : SstReader), r.advance = some r2 → r2.get ≠ some ([], [])) ∧
    (∀ (r : SstReader) (key : List Nat) (r2 : SstReader),
      r.seek key = some r2 → r2.get ≠ some ([], [])) ∧
    (SstWriter.new.push_record [] []).finish = Except.ok lostRecordFile ∧
    (∀ key, (SstReader.new lostRecordFile).seek key =
      some (⟨lostRecordFile, none, none⟩ : SstReader)) :=
  ⟨rfl, advance_no_empty_record, seek_no_empty_record, rfl, fun _ => rfl⟩

/-- Witness for C10: the reader lemmas applied at a concrete cursor. -/
theorem empty_record_lost_witness :
    (⟨lostRecordFile, none, none⟩ : SstReader).get ≠ some ([], []) :=
  empty_record_encodes_as_terminator_and_is_lost.2.2.1 (SstReader.new lostRecordFile)
    [97] ⟨lostRecordFile, none, none⟩ rfl

/-- Association-list lookup (the semantics of the stores' `HashMap`
get). -/
def assocLookup {κ β : Type} [DecidableEq κ] (k : κ) : List (κ × β) → Option β
  | [] => none
  | (k2, v) :: t => if k2 = k then some v else assocLookup k t

/-- `HashMap::remove`. -/
def assocRemove {κ β : Type} [DecidableEq κ] (k : κ) : List (κ × β) → List (κ × β)
  | [] => []
  | (k2, v) :: t => if k2 = k then assocRemove k t else (k2, v) :: assocRemove k t

/-- `HashMap::insert` (replaces any existing entry). -/
def assocInsert {κ β : Type} [DecidableEq κ] (k : κ) (v : β) (l : List (κ × β)) :
    List (κ × β) :=
  (k, v) :: assocRemove k l

/-- In-memory file store (`memory_file_store.rs`): a map from identifier
to an immutable byte buffer. A read view is the shared buffer itself. -/
structure MemoryFileStore where
  map : List (String × List Nat)
deriving Repr, DecidableEq

/-- Writer drop after `flush_and_close`: publish the buffer. -/
def memory_write (st : MemoryFileStore) (id : String) (bytes : List Nat) :
    MemoryFileStore :=
  ⟨assocInsert id bytes st.map⟩

/-- `MemoryFileStore::open_for_read`: clone the `Arc`, or a not-found
error (`Err(())`). -/
def memory_open_for_read (st : MemoryFileStore) (id : String) :
    Except Unit (List Nat) :=
  match assocLookup id st.map with
  | some b => Except.ok b
  | none => Except.error ()

/-- `MemoryFileStore::delete`: remove the map entry (held `Arc`s keep the
bytes alive). -/
def memory_delete (st : MemoryFileStore) (id : String) : MemoryFileStore :=
  ⟨assocRemove id st.map⟩

/-- A live `MmapInner` of the local store: mapped bytes, the path for the
deferred unlink, the delete flag, and the `Arc` strong count. -/
structure MmapInnerM where
  bytes : List Nat
  path : String
  deleteFlag : Bool
  refs : Nat
deriving Repr, DecidableEq

/-- State of `LocalFileStore` plus its data directory: files on disk, the
`open_files` pool (identifier → inner), live inners keyed by an
allocation id, and a fresh-id counter. -/
structure LocalFileStore where
  disk : List (String × List Nat)
  pool : List (String × Nat)
  inners : List (Nat × MmapInnerM)
  nextId : Nat
deriving Repr, DecidableEq

def LocalFileStore.empty : LocalFileStore := ⟨[], [], [], 0⟩

/-- `open_for_write` + `flush_and_close`: create/truncate the file and
persist the bytes. -/
def local_write (st : LocalFileStore) (id : String) (bytes : List Nat) :
    LocalFileStore :=
  { st with disk := assocInsert id bytes st.disk }

/-- Dropping one `Arc<MmapInner>` reference: on the last release,
`MmapInner::drop` runs — unmap, and unlink the file when the delete flag
is set. -/
def dropRef (st : LocalFileStore) (iid : Nat) : LocalFileStore :=
  match assocLookup iid st.inners with
  | none => st
  | some inner =>
    if inner.refs ≤ 1 then
      let st2 := { st with inners := assocRemove iid st.inners }
      if inner.deleteFlag then { st2 with disk := assocRemove inner.path st2.disk }
      else st2
    else
      { st with inners := st.inners.map (fun p =>
          if p.1 = iid then (p.1, { p.2 with refs := p.2.refs - 1 }) else p) }

/-- `LocalFileStore::open_for_read`: reuse the pooled mapping (cloning the
`Arc`), else `File::open` + mmap, pooling the new inner; a missing file is
an io error. Returns the new state and the view (an inner id). -/
def local_open_for_read (st : LocalFileStore) (id : String) :
    Except Unit (LocalFileStore × Nat) :=
  match assocLookup id st.pool with
  | some iid =>
    Except.ok ({ st with inners := st.inners.map (fun p =>
      if p.1 = iid then (p.1, { p.2 with refs := p.2.refs + 1 }) else p) }, iid)
  | none =>
    match assocLookup id st.disk with
    | none => Except.error ()
    | some bytes =>
      Except.ok ({ st with
        pool := assocInsert id st.nextId st.pool
        inners := (st.nextId, ⟨bytes, id, false, 2⟩) :: st.inners
        nextId := st.nextId + 1 }, st.nextId)

/-- `LocalFileStore::delete`: remove the pool entry and set the delete
flag; removing the pool entry drops the pool's `Arc`. If the identifier is
not pooled, nothing happens at all — the disk file stays. -/
def local_delete (st : LocalFileStore) (id : String) : LocalFileStore :=
  match assocLookup id st.pool with
  | none => st
  | some iid =>
    dropRef
      { st with
        pool := assocRemove id st.pool
        inners := st.inners.map (fun p =>
          if p.1 = iid then (p.1, { p.2 with deleteFlag := true }) else p) }
      iid

/-- Reading through a held view: the mapped bytes, while the inner is
alive. -/
def readView (st : LocalFileStore) (iid : Nat) : Option (List Nat) :=
  (assocLookup iid st.inners).map (fun inn => inn.bytes)

theorem assocLookup_remove_self {β : Type} (id : String) (l : List (String × β)) :
    assocLookup id (assocRemove id l) = none := by
  induction l with
  | nil => rfl
  | cons p t ih =>
    rcases p with ⟨k2, v⟩
    by_cases h : k2 = id
    · simpa [assocRemove, h] using ih
    · simpa [assocRemove, assocLookup, h] using ih

theorem assocLookup_remove_other {β : Type} (id id2 : String) (l : List (String × β))
    (h : id2 ≠ id) : assocLookup id2 (assocRemove id l) = assocLookup id2 l := by
  induction l with
  | nil => rfl
  | cons p t ih =>
    rcases p with ⟨k2, v⟩
    by_cases hp : k2 = id
    · simp [assocRemove, assocLookup, hp, Ne.symm h, ih]
    · simp [assocRemove, assocLookup, hp, ih]

instance {e a : Type} [DecidableEq e] [DecidableEq a] : DecidableEq (Except e a) :=
  fun x y =>
  match x, y with
  | Except.error e1, Except.error e2 =>
    if h : e1 = e2 then isTrue (by rw [h]) else isFalse (fun hc => h (by cases hc; rfl))
  | Except.ok v1, Except.ok v2 =>
    if h : v1 = v2 then isTrue (by rw [h]) else isFalse (fun hc => h (by cases hc; rfl))
  | Except.error _, Except.ok _ => isFalse (fun hc => by cases hc)
  | Except.ok _, Except.error _ => isFalse (fun hc => by cases hc)

/-- Claim C4 counterexample: on the local store, `delete` of an identifier
that is not pooled does nothing, so a subsequent `open_for_read` happily
re-opens the file from disk instead of returning a not-found error. -/
theorem local_open_after_delete_not_error :
    local_open_for_read
      (local_delete (local_write LocalFileStore.empty "f" [104, 105]) "f") "f" ≠
      Except.error () := by
  decide

/-- Claim C4 amended: the in-memory store behaves as claimed (held views
keep their bytes, new opens fail after delete, other identifiers are
unaffected), but the local store only reaches the not-found state once
the pooled mapping and every held view have been dropped — while a view
is alive (or when the identifier was never pooled) `open_for_read` after
`delete` still succeeds, and the held view stays readable throughout. -/
theorem file_store_delete_semantics :
    (∀ (st : MemoryFileStore) (id : String),
      memory_open_for_read (memory_delete st id) id = Except.error ()) ∧
    (∀ (st : MemoryFileStore) (id id2 : String), id2 ≠ id →
      memory_open_for_read (memory_delete st id) id2 = memory_open_for_read st id2) ∧
    (∀ (st2 : LocalFileStore) (v : Nat),
      local_open_for_read (local_write LocalFileStore.empty "f" [104, 105]) "f" =
        Except.ok (st2, v) →
      readView (local_delete st2 "f") v = some [104, 105] ∧
      (local_open_for_read (local_delete st2 "f") "f").isOk = true ∧
      local_open_for_read (dropRef (local_delete st2 "f") v) "f" =
        Except.error ()) := by
  refine ⟨fun st id => ?_, fun st id id2 h => ?_, fun st2 v h => ?_⟩
  · unfold memory_open_for_read memory_delete
    rw [assocLookup_remove_self]
  · unfold memory_open_for_read memory_delete
    rw [assocLookup_remove_other _ _ _ h]
  · have h2 : Except.ok (st2, v) = local_open_for_read
        (local_write LocalFileStore.empty "f" [104, 105]) "f" := h.symm
    have h3 : local_open_for_read (local_write LocalFileStore.empty "f" [104, 105]) "f" =
        Except.ok (⟨[("f", [104, 105])], [("f", 0)],
          [(0, ⟨[104, 105], "f", false, 2⟩)], 1⟩, 0) := by decide
    rw [h3] at h2
    cases h2
    refine ⟨by decide, by decide, by decide⟩

/-- Witness for C4's amended theorem at concrete inputs. -/
theorem file_store_delete_semantics_witness :
    memory_open_for_read (memory_delete (memory_write ⟨[]⟩ "f" [1]) "f") "f" =
      Except.error () ∧
    readView (local_delete (⟨[("f", [104, 105])], [("f", 0)],
      [(0, ⟨[104, 105], "f", false, 2⟩)], 1⟩ : LocalFileStore) "f") 0 = some [104, 105] :=
  ⟨file_store_delete_semantics.1 (memory_write ⟨[]⟩ "f" [1]) "f",
    (file_store_delete_semantics.2.2
      ⟨[("f", [104, 105])], [("f", 0)], [(0, ⟨[104, 105], "f", false, 2⟩)], 1⟩ 0
      (by decide)).1⟩

/-- The full byte encoding of one record in the data section. -/
def encRecord (r : List Nat × List Nat) : List Nat := recBytes r.1 r.2

/-- Well-formedness of a single record: not the terminator pattern, and
lengths representable as `u32`. -/
def recWf (r : List Nat × List Nat) : Prop :=
  ¬(r.1 = [] ∧ r.2 = []) ∧ r.1.length < 2 ^ 32 ∧ r.2.length < 2 ^ 32

instance (r : List Nat × List Nat) : Decidable (recWf r) :=
  inferInstanceAs
    (Decidable (¬(r.1 = [] ∧ r.2 = []) ∧ r.1.length < 2 ^ 32 ∧ r.2.length < 2 ^ 32))

/-- The post-data bytes of an SST file: search-tree section plus footer. -/
def tailBytes (mid : List Nat) (root : Int) : List Nat :=
  mid ++ i32be root ++ [0, 1]

/-- The suffix of the data section from record boundary `j` onwards,
followed by the terminator and the file tail. -/
def sufAt (rs : List (List Nat × List Nat)) (mid : List Nat) (root : Int) (j : Nat) :
    List Nat :=
  ((rs.drop j).map encRecord).flatten ++ [0, 0] ++ tailBytes mid root

/-- Specification of the linear scan over the remaining records: the first
record whose key is ≥ the sought key, with the cursor suffix just after
it, or a cleared cursor at the terminator. -/
def scanSpec (mid : List Nat) (root : Int) (key : List Nat) :
    List (List Nat × List Nat) →
    Option (List Nat) × Option (List Nat × List Nat)
  | [] => (none, none)
  | r :: rest =>
    if bytesLe key r.1 then
      (some ((rest.map encRecord).flatten ++ [0, 0] ++ tailBytes mid root), some r)
    else scanSpec mid root key rest

theorem scanData_records (mid : List Nat) (root : Int) (key : List Nat) :
    ∀ (rs2 : List (List Nat × List Nat)) (fuel : Nat), rs2.length + 1 ≤ fuel →
    (∀ r ∈ rs2, recWf r) →
    scanData fuel ((rs2.map encRecord).flatten ++ [0, 0] ++ tailBytes mid root) key =
      some (scanSpec mid root key rs2) := by
  intro rs2
  induction rs2 with
  | nil =>
    intro fuel hfuel _
    obtain ⟨f, rfl⟩ : ∃ f, fuel = f + 1 := ⟨fuel - 1, by omega⟩
    simp [scanData, read_varint_unsigned, scanSpec]
  | cons r rest ih =>
    intro fuel hfuel hwf
    obtain ⟨f, rfl⟩ : ∃ f, fuel = f + 1 := ⟨fuel - 1, by omega⟩
    obtain ⟨k, v⟩ := r
    obtain ⟨hne, h1, h2⟩ := hwf (k, v) (by simp)
    have h1b : k.length < 4294967296 := by norm_num at h1; exact h1
    have h2b : v.length < 4294967296 := by norm_num at h2; exact h2
    have hm1 : k.length % 4294967296 = k.length := Nat.mod_eq_of_lt h1b
    have hm2 : v.length % 4294967296 = v.length := Nat.mod_eq_of_lt h2b
    have henc : ((((k, v) :: rest).map encRecord).flatten ++ [0, 0] ++ tailBytes mid root) =
        write_varint_unsigned k.length ++ (write_varint_unsigned v.length ++
          (k ++ (v ++ ((rest.map encRecord).flatten ++ [0, 0] ++ tailBytes mid root)))) := by
      simp [encRecord, recBytes, hm1, hm2, List.append_assoc]
    rw [henc]
    simp only [scanData]
    rw [read_write_varint_unsigned k.length h1]
    simp only []
    rw [read_write_varint_unsigned v.length h2]
    simp only []
    have hkv0 : ¬(k.length = 0 ∧ v.length = 0) := by
      intro ⟨ha, hb⟩
      exact hne ⟨List.length_eq_zero.mp ha, List.length_eq_zero.mp hb⟩
    rw [if_neg hkv0]
    have hguard : k.length + v.length ≤
        (k ++ (v ++ ((rest.map encRecord).flatten ++ [0, 0] ++ tailBytes mid root))).length := by
      simp
    rw [if_pos hguard]
    have htake : (k ++ (v ++ ((rest.map encRecord).flatten ++ [0, 0] ++
        tailBytes mid root))).take k.length = k := List.take_left k _
    have hdrop1 : (k ++ (v ++ ((rest.map encRecord).flatten ++ [0, 0] ++
        tailBytes mid root))).drop k.length = v ++ ((rest.map encRecord).flatten ++ [0, 0] ++
        tailBytes mid root) := List.drop_left k _
    have hdropall : (k ++ (v ++ ((rest.map encRecord).flatten ++ [0, 0] ++
        tailBytes mid root))).drop (k.length + v.length) =
        (rest.map encRecord).flatten ++ [0, 0] ++ tailBytes mid root := by
      rw [← List.append_assoc]
      have hl : (k ++ v).length = k.length + v.length := List.length_append k v
      rw [← hl]
      exact List.drop_left (k ++ v) _
    rw [htake, hdrop1, hdropall]
    by_cases hle : bytesLe key k
    · rw [if_pos hle]
      have htake2 : (v ++ ((rest.map encRecord).flatten ++ [0, 0] ++
          tailBytes mid root)).take v.length = v := List.take_left v _
      rw [htake2]
      simp [scanSpec, hle]
    · rw [if_neg hle]
      rw [ih f (by simpa using hfuel) (fun x hx => hwf x (by simp [hx]))]
      simp [scanSpec, hle]

/-- The pivot bytes the reader's comparison closure would fetch for pivot
index `j` of the page whose pivot-pointer array starts at `base`. -/
def pivotBytesAt (file : List Nat) (base j : Nat) : Option (List Nat) :=
  match readBytesAt file (j * 4 + base) 4 with
  | none => none
  | some pb =>
    if fromBytesBE pb ≤ file.length then
      match read_varint_unsigned (file.drop (fromBytesBE pb)) with
      | none => none
      | some (plen, pbuf) => if plen ≤ pbuf.length then some (pbuf.take plen) else none
    else none

theorem pivotCmp_of_bytes {file : List Nat} {base j : Nat} {piv : List Nat}
    (key : List Nat) (h : pivotBytesAt file base j = some piv) :
    pivotCmp file base key j = some (byteCmp piv key) := by
  unfold pivotBytesAt at h
  unfold pivotCmp
  rcases h1 : readBytesAt file (j * 4 + base) 4 with _ | pb
  · rw [h1] at h; cases h
  · simp only [h1] at h ⊢
    by_cases h2 : fromBytesBE pb ≤ file.length
    · rw [if_pos h2] at h ⊢
      rcases h3 : read_varint_unsigned (file.drop (fromBytesBE pb)) with _ | ⟨plen, pbuf⟩
      · rw [h3] at h; cases h
      · simp only [h3] at h ⊢
        by_cases h4 : plen ≤ pbuf.length
        · rw [if_pos h4] at h
          cases h
          rw [if_pos h4]
        · rw [if_neg h4] at h; cases h
    · rw [if_neg h2] at h
      cases h

theorem bsearchLoop_some (f : Nat → Option Ordering) :
    ∀ (fuel left right : Nat), left ≤ right → right - left ≤ fuel →
    (∀ j, j < right → ∃ o, f j = some o) →
    ∃ i, bsearchLoop fuel f left right = some i ∧ left ≤ i ∧ i ≤ right := by
  intro fuel
  induction fuel with
  | zero =>
    intro left right h1 h2 _
    have : left = right := by omega
    subst this
    exact ⟨left, by simp [bsearchLoop], le_refl _, le_refl _⟩
  | succ fuel ih =>
    intro left right h1 h2 hf
    by_cases heq : left = right
    · subst heq
      exact ⟨left, by simp [bsearchLoop], le_refl _, le_refl _⟩
    · have hlt : left < right := by omega
      have hmid1 : left ≤ (left + right) / 2 := by omega
      have hmid2 : (left + right) / 2 < right := by omega
      obtain ⟨o, ho⟩ := hf ((left + right) / 2) hmid2
      simp only [bsearchLoop, if_neg heq, ho]
      cases o with
      | gt =>
        obtain ⟨i, hi, hi1, hi2⟩ := ih left ((left + right) / 2) hmid1 (by omega)
          (fun j hj => hf j (by omega))
        exact ⟨i, hi, hi1, by omega⟩
      | lt =>
        obtain ⟨i, hi, hi1, hi2⟩ := ih ((left + right) / 2 + 1) right (by omega) (by omega) hf
        exact ⟨i, hi, by omega, hi2⟩
      | eq =>
        obtain ⟨i, hi, hi1, hi2⟩ := ih ((left + right) / 2 + 1) right (by omega) (by omega) hf
        exact ⟨i, hi, by omega, hi2⟩

theorem bsearchLoop_all_gt (f : Nat → Option Ordering) :
    ∀ (fuel right : Nat), right ≤ fuel →
    (∀ j, j < right → f j = some Ordering.gt) →
    bsearchLoop fuel f 0 right = some 0 := by
  intro fuel
  induction fuel with
  | zero =>
    intro right h1 _
    have : right = 0 := by omega
    subst this
    simp [bsearchLoop]
  | succ fuel ih =>
    intro right h1 hf
    by_cases heq : right = 0
    · subst heq
      simp [bsearchLoop]
    · have hmid : (0 + right) / 2 < right := by omega
      have ho := hf ((0 + right) / 2) hmid
      simp only [bsearchLoop, ho]
      rw [if_neg (show ¬(0 = right) from fun h => heq h.symm)]
      exact ih ((0 + right) / 2) (by omega) (fun j hj => hf j (by omega))

theorem write_varint_unsigned_length_pos (i : Nat) :
    1 ≤ (write_varint_unsigned i).length := by
  unfold write_varint_unsigned
  split
  · simp
  · split <;> simp

theorem encRecord_length_pos (r : List Nat × List Nat) : 1 ≤ (encRecord r).length := by
  unfold encRecord recBytes
  simp only [List.length_append]
  have := write_varint_unsigned_length_pos (r.1.length % 2 ^ 32)
  omega

theorem length_le_flatten :
    ∀ (l : List (List Nat)), (∀ x ∈ l, 1 ≤ x.length) → l.length ≤ l.flatten.length := by
  intro l
  induction l with
  | nil => intro _; simp
  | cons x xs ih =>
    intro h
    have h1 := h x (by simp)
    have h2 := ih (fun y hy => h y (by simp [hy]))
    simp only [List.flatten_cons, List.length_append, List.length_cons]
    omega

theorem flatten_drop_take (b : Nat) :
    ∀ (l : List (List Nat)), l.flatten.drop ((l.take b).flatten.length) = (l.drop b).flatten := by
  induction b with
  | zero => intro l; simp
  | succ b ih =>
    intro l
    cases l with
    | nil => simp
    | cons x xs =>
      simp only [List.take_succ_cons, List.flatten_cons, List.length_append, List.drop_succ_cons]
      rw [List.drop_append (((List.take b xs).flatten).length)]
      exact ih xs

/-- Byte offset of record boundary `b` inside an SST file whose data
section holds the records `rs`. -/
def offAt (rs : List (List Nat × List Nat)) (b : Nat) : Nat :=
  sstHeader.length + ((rs.take b).map encRecord).flatten.length

/-- The byte layout of a finished SST file: header, encoded records,
terminator, then search-tree bytes and footer. -/
def fileOf (rs : List (List Nat × List Nat)) (mid : List Nat) (root : Int) : List Nat :=
  sstHeader ++ (rs.map encRecord).flatten ++ [0, 0] ++ tailBytes mid root

theorem take_flatten_le (l : List (List Nat)) (b : Nat) :
    ((l.take b).flatten).length ≤ l.flatten.length := by
  have h : (l.take b).flatten ++ (l.drop b).flatten = l.flatten := by
    rw [← List.flatten_append, List.take_append_drop]
  have := congrArg List.length h
  simp only [List.length_append] at this
  omega

theorem fileOf_drop_offAt (rs : List (List Nat × List Nat)) (mid : List Nat) (root : Int)
    (b : Nat) :
    (fileOf rs mid root).drop (offAt rs b) = sufAt rs mid root b := by
  unfold fileOf offAt sufAt
  have hle : ((rs.take b).map encRecord).flatten.length ≤ ((rs.map encRecord).flatten).length := by
    have := take_flatten_le (rs.map encRecord) b
    rwa [← List.map_take] at this
  have hfl : ((rs.map encRecord).flatten).drop (((rs.take b).map encRecord).flatten.length) =
      ((rs.drop b).map encRecord).flatten := by
    have := flatten_drop_take b (rs.map encRecord)
    rwa [← List.map_take, ← List.map_drop] at this
  rw [List.append_assoc, List.append_assoc,
    List.drop_append (((rs.take b).map encRecord).flatten.length),
    List.drop_append_of_le_length hle, hfl, ← List.append_assoc]

theorem offAt_le_length (rs : List (List Nat × List Nat)) (mid : List Nat) (root : Int)
    (b : Nat) : offAt rs b ≤ (fileOf rs mid root).length := by
  unfold offAt fileOf
  have hle : ((rs.take b).map encRecord).flatten.length ≤ ((rs.map encRecord).flatten).length := by
    have := take_flatten_le (rs.map encRecord) b
    rwa [← List.map_take] at this
  simp only [List.length_append]
  omega

theorem i32OfBytes_i32be (r : Int) (h1 : -(2 : Int) ^ 31 ≤ r) (h2 : r < 2 ^ 31) :
    i32OfBytes (i32be r) = r := by
  unfold i32OfBytes i32be
  have hb : (r % 2 ^ 32).toNat < 256 ^ 4 := by omega
  rw [fromBytesBE_toBytesBE 4 _ hb]
  have hc : ((r % 2 ^ 32).toNat : Int) = r % 2 ^ 32 := Int.toNat_of_nonneg (by omega)
  show (if (r % 2 ^ 32).toNat < 2 ^ 31 then ((r % 2 ^ 32).toNat : Int)
    else ((r % 2 ^ 32).toNat : Int) - 2 ^ 32) = r
  split <;> omega

/-- A negative pointer that lands exactly on record boundary `b` of the
data section; the leftmost flag forces `b = 0`. -/
def leafOkB (rs : List (List Nat × List Nat)) (ptr : Int) (lm : Bool) : Bool :=
  decide (ptr < 0) && (List.range (rs.length + 1)).any (fun b =>
    decide ((-ptr).toNat = offAt rs b) && (!lm || decide (b = 0)))

/-- Validity (to depth `d`) of the search-tree node reached through
pointer `ptr` of `file`: every pivot is readable and at least `minKey`,
every child pointer is readable and leads to a valid node, and negative
pointers land on record boundaries of `rs`; the flag marks the leftmost
spine, whose leaves must sit on boundary 0. -/
def validNodeB (file : List Nat) (rs : List (List Nat × List Nat)) (minKey : List Nat) :
    Nat → Int → Bool → Bool
  | 0, ptr, lm => leafOkB rs ptr lm
  | d + 1, ptr, lm =>
    leafOkB rs ptr lm ||
    (decide (0 ≤ ptr) &&
      match file.get? ptr.toNat with
      | none => false
      | some m =>
        decide (1 ≤ m) &&
        (List.range (m - 1)).all (fun j =>
          match pivotBytesAt file (ptr.toNat + 1) j with
          | none => false
          | some piv => decide (bytesLe minKey piv) && decide (piv ≠ [])) &&
        (List.range m).all (fun i =>
          match readBytesAt file (i * 4 + ((m - 1) * 4 + (ptr.toNat + 1))) 4 with
          | none => false
          | some cb => validNodeB file rs minKey d (i32OfBytes cb) (lm && decide (i = 0))))

theorem leafOkB_spec {rs : List (List Nat × List Nat)} {ptr : Int} {lm : Bool}
    (h : leafOkB rs ptr lm = true) :
    ptr < 0 ∧ ∃ b, b ≤ rs.length ∧ (-ptr).toNat = offAt rs b ∧ (lm = true → b = 0) := by
  unfold leafOkB at h
  simp only [Bool.and_eq_true, List.any_eq_true, List.mem_range, decide_eq_true_eq,
    Bool.or_eq_true, Bool.not_eq_true'] at h
  obtain ⟨h1, b, hb, hoff, hlm⟩ := h
  refine ⟨h1, b, by omega, hoff, ?_⟩
  intro he
  rcases hlm with hlm | hlm
  · rw [he] at hlm; cases hlm
  · exact hlm

theorem walk_from_leaf (rs : List (List Nat × List Nat)) (mid : List Nat) (root : Int)
    (hwf : ∀ r ∈ rs, recWf r) (ptr : Int) (lm : Bool) (fuel : Nat) (key : List Nat)
    (hleaf : leafOkB rs ptr lm = true) (hfuel : 1 ≤ fuel) :
    ∃ b, b ≤ rs.length ∧ (lm = true → b = 0) ∧
      walk_from fuel (fileOf rs mid root) ptr key =
        some (scanSpec mid root key (rs.drop b)) := by
  obtain ⟨hneg, b, hb, hoff, hlm⟩ := leafOkB_spec hleaf
  obtain ⟨f, rfl⟩ : ∃ f, fuel = f + 1 := ⟨fuel - 1, by omega⟩
  refine ⟨b, hb, hlm, ?_⟩
  simp only [walk_from]
  rw [if_pos hneg, hoff, if_pos (offAt_le_length rs mid root b), fileOf_drop_offAt]
  have h1 : (rs.drop b).length ≤ ((rs.drop b).map encRecord).flatten.length := by
    have := length_le_flatten ((rs.drop b).map encRecord) (by
      intro x hx
      obtain ⟨r, _, rfl⟩ := List.mem_map.mp hx
      exact encRecord_length_pos r)
    simpa using this
  have h3 : (sufAt rs mid root b).length ≤ (fileOf rs mid root).length := by
    rw [← fileOf_drop_offAt]
    simp
  have h2 : ((rs.drop b).map encRecord).flatten.length ≤ (sufAt rs mid root b).length := by
    unfold sufAt
    simp only [List.length_append]
    omega
  exact scanData_records mid root key (rs.drop b) ((fileOf rs mid root).length + 1)
    (by omega) (fun r hr => hwf r (List.drop_subset b rs hr))

theorem walk_from_aligned (rs : List (List Nat × List Nat)) (mid : List Nat) (root : Int)
    (minKey : List Nat) (hwf : ∀ r ∈ rs, recWf r) :
    ∀ (d : Nat) (ptr : Int) (lm : Bool) (fuel : Nat) (key : List Nat),
    validNodeB (fileOf rs mid root) rs minKey d ptr lm = true →
    d + 1 ≤ fuel →
    ∃ b, b ≤ rs.length ∧ (lm = true → bytesLt key minKey ∨ key = [] → b = 0) ∧
      walk_from fuel (fileOf rs mid root) ptr key =
        some (scanSpec mid root key (rs.drop b)) := by
  intro d
  induction d with
  | zero =>
    intro ptr lm fuel key hvalid hfuel
    obtain ⟨b, hb, hlm, hwalk⟩ := walk_from_leaf rs mid root hwf ptr lm fuel key hvalid
      (by omega)
    exact ⟨b, hb, fun he _ => hlm he, hwalk⟩
  | succ d ih =>
    intro ptr lm fuel key hvalid hfuel
    rw [show validNodeB (fileOf rs mid root) rs minKey (d + 1) ptr lm =
      (leafOkB rs ptr lm ||
        (decide (0 ≤ ptr) &&
          match (fileOf rs mid root).get? ptr.toNat with
          | none => false
          | some m =>
            decide (1 ≤ m) &&
            (List.range (m - 1)).all (fun j =>
              match pivotBytesAt (fileOf rs mid root) (ptr.toNat + 1) j with
              | none => false
              | some piv => decide (bytesLe minKey piv) && decide (piv ≠ [])) &&
            (List.range m).all (fun i =>
              match readBytesAt (fileOf rs mid root)
                  (i * 4 + ((m - 1) * 4 + (ptr.toNat + 1))) 4 with
              | none => false
              | some cb => validNodeB (fileOf rs mid root) rs minKey d (i32OfBytes cb)
                  (lm && decide (i = 0))))) from rfl] at hvalid
    rw [Bool.or_eq_true] at hvalid
    rcases hvalid with hleaf | hnode
    · obtain ⟨b, hb, hlm, hwalk⟩ := walk_from_leaf rs mid root hwf ptr lm fuel key hleaf
        (by omega)
      exact ⟨b, hb, fun he _ => hlm he, hwalk⟩
    · rw [Bool.and_eq_true, decide_eq_true_eq] at hnode
      obtain ⟨hpos, hnode⟩ := hnode
      rcases hg : (fileOf rs mid root).get? ptr.toNat with _ | m
      · rw [hg] at hnode; cases hnode
      · rw [hg] at hnode
        rw [Bool.and_eq_true, Bool.and_eq_true, decide_eq_true_eq] at hnode
        obtain ⟨⟨hm1, hpiv⟩, hchild⟩ := hnode
        rw [List.all_eq_true] at hpiv hchild
        have hpiv' : ∀ j, j < m - 1 → ∃ piv,
            pivotBytesAt (fileOf rs mid root) (ptr.toNat + 1) j = some piv ∧
            bytesLe minKey piv ∧ piv ≠ [] := by
          intro j hj
          have := hpiv j (List.mem_range.mpr hj)
          rcases hp : pivotBytesAt (fileOf rs mid root) (ptr.toNat + 1) j with _ | piv
          · rw [hp] at this; cases this
          · rw [hp] at this
            rw [Bool.and_eq_true, decide_eq_true_eq, decide_eq_true_eq] at this
            exact ⟨piv, rfl, this.1, this.2⟩
        have hchild' : ∀ i, i < m → ∃ cb,
            readBytesAt (fileOf rs mid root) (i * 4 + ((m - 1) * 4 + (ptr.toNat + 1))) 4 =
              some cb ∧
            validNodeB (fileOf rs mid root) rs minKey d (i32OfBytes cb)
              (lm && decide (i = 0)) = true := by
          intro i hi
          have := hchild i (List.mem_range.mpr hi)
          rcases hc : readBytesAt (fileOf rs mid root)
              (i * 4 + ((m - 1) * 4 + (ptr.toNat + 1))) 4 with _ | cb
          · rw [hc] at this; cases this
          · rw [hc] at this
            exact ⟨cb, rfl, this⟩
        obtain ⟨f, rfl⟩ : ∃ f, fuel = f + 1 := ⟨fuel - 1, by omega⟩
        simp only [walk_from]
        rw [if_neg (by omega)]
        simp only [hg]
        by_cases hsmall : lm = true ∧ (bytesLt key minKey ∨ key = [])
        · have hallgt : ∀ j, j < m - 1 →
              pivotCmp (fileOf rs mid root) (ptr.toNat + 1) key j = some Ordering.gt := by
            intro j hj
            obtain ⟨piv, hp, hle, hne⟩ := hpiv' j hj
            rw [pivotCmp_of_bytes key hp]
            rcases hsmall.2 with hk | hk
            · have hlt : bytesLt key piv := bytesLt_le_trans hk hle
              have hsw : (byteCmp key piv).swap = byteCmp piv key := byteCmp_swap key piv
              rw [bytesLt] at hlt
              rw [hlt] at hsw
              rw [← hsw]
              rfl
            · subst hk
              rcases piv with _ | ⟨p, ps⟩
              · exact absurd rfl hne
              · rfl
          have hbs : binary_search m (pivotCmp (fileOf rs mid root) (ptr.toNat + 1) key) =
              some 0 := by
            unfold binary_search
            rw [if_neg (by omega)]
            exact bsearchLoop_all_gt _ m (m - 1) (by omega) hallgt
          simp only [hbs]
          obtain ⟨cb, hcb, hv⟩ := hchild' 0 (by omega)
          simp only [hcb]
          have hflag : (lm && decide ((0 : Nat) = 0)) = true := by
            rw [hsmall.1]
            simp
          rw [hflag] at hv
          obtain ⟨b, hb, hlm2, hwalk⟩ := ih (i32OfBytes cb) true f key hv (by omega)
          exact ⟨b, hb, fun _ _ => hlm2 rfl hsmall.2, hwalk⟩
        · have htot : ∀ j, j < m - 1 →
              ∃ o, pivotCmp (fileOf rs mid root) (ptr.toNat + 1) key j = some o := by
            intro j hj
            obtain ⟨piv, hp, _⟩ := hpiv' j hj
            exact ⟨byteCmp piv key, pivotCmp_of_bytes key hp⟩
          obtain ⟨ci, hci, _, hci2⟩ := bsearchLoop_some
            (pivotCmp (fileOf rs mid root) (ptr.toNat + 1) key) m 0 (m - 1) (by omega)
            (by omega) htot
          have hbs : binary_search m (pivotCmp (fileOf rs mid root) (ptr.toNat + 1) key) =
              some ci := by
            unfold binary_search
            rw [if_neg (by omega)]
            exact hci
          simp only [hbs]
          obtain ⟨cb, hcb, hv⟩ := hchild' ci (by omega)
          simp only [hcb]
          obtain ⟨b, hb, hlm2, hwalk⟩ := ih (i32OfBytes cb) (lm && decide (ci = 0)) f key hv
            (by omega)
          refine ⟨b, hb, ?_, hwalk⟩
          intro he hk
          exact absurd ⟨he, hk⟩ hsmall

theorem readBytesAt_append (P Q : List Nat) (n : Nat) (hn : n ≤ Q.length) :
    readBytesAt (P ++ Q) P.length n = some (Q.take n) := by
  unfold readBytesAt
  rw [if_pos (by simp; omega), List.drop_left]

theorem fileOf_tail_split (rs : List (List Nat × List Nat)) (mid : List Nat) (root : Int) :
    fileOf rs mid root =
      (sstHeader ++ (rs.map encRecord).flatten ++ [0, 0] ++ mid) ++ (i32be root ++ [0, 1]) := by
  simp [fileOf, tailBytes, List.append_assoc]

theorem i32be_length (root : Int) : (i32be root).length = 4 := by
  simp [i32be, toBytesBE_length]

theorem fileOf_length (rs : List (List Nat × List Nat)) (mid : List Nat) (root : Int) :
    (fileOf rs mid root).length =
      (sstHeader ++ (rs.map encRecord).flatten ++ [0, 0] ++ mid).length + 6 := by
  rw [fileOf_tail_split]
  simp [i32be_length]
  omega

theorem seek_aligned (rs : List (List Nat × List Nat)) (mid : List Nat) (root : Int)
    (minKey : List Nat) (d : Nat) (key : List Nat)
    (hwf : ∀ r ∈ rs, recWf r)
    (hr1 : -(2 : Int) ^ 31 ≤ root) (hr2 : root < 2 ^ 31)
    (hvalid : validNodeB (fileOf rs mid root) rs minKey d root true = true)
    (hd : d ≤ (fileOf rs mid root).length) :
    ∃ b, b ≤ rs.length ∧ (bytesLt key minKey ∨ key = [] → b = 0) ∧
      (SstReader.new (fileOf rs mid root)).seek key =
        some ⟨fileOf rs mid root, (scanSpec mid root key (rs.drop b)).1,
          (scanSpec mid root key (rs.drop b)).2⟩ := by
  have hlen := fileOf_length rs mid root
  have hrb : readBytesAt (fileOf rs mid root) ((fileOf rs mid root).length - 6) 4 =
      some (i32be root) := by
    have he : (fileOf rs mid root).length - 6 =
        (sstHeader ++ (rs.map encRecord).flatten ++ [0, 0] ++ mid).length := by omega
    rw [he]
    conv_lhs => rw [fileOf_tail_split]
    rw [readBytesAt_append _ _ 4 (by simp [i32be_length])]
    have h4 : (i32be root).length = 4 := i32be_length root
    rw [← h4, List.take_left]
  obtain ⟨b, hb, hlm, hwalk⟩ := walk_from_aligned rs mid root minKey hwf d root true
    ((fileOf rs mid root).length + 1) key hvalid (by omega)
  refine ⟨b, hb, fun hk => hlm rfl hk, ?_⟩
  simp only [SstReader.seek, SstReader.new]
  rw [if_pos (by omega)]
  simp only [hrb, i32OfBytes_i32be root hr1 hr2, hwalk]

theorem bytesLe_nil (x : List Nat) : bytesLe [] x := by
  cases x <;> simp [bytesLe, byteCmp]

theorem scanSpec_cases (mid : List Nat) (root : Int) (key : List Nat) :
    ∀ l : List (List Nat × List Nat),
    scanSpec mid root key l = (none, none) ∨
    ∃ j r, l.get? j = some r ∧ bytesLe key r.1 ∧
      scanSpec mid root key l =
        (some (((l.drop (j + 1)).map encRecord).flatten ++ [0, 0] ++ tailBytes mid root),
          some r) := by
  intro l
  induction l with
  | nil => left; rfl
  | cons r rest ih =>
    by_cases hle : bytesLe key r.1
    · right
      exact ⟨0, r, rfl, hle, by simp [scanSpec, hle]⟩
    · rcases ih with h | ⟨j, r', hg, hle', heq⟩
      · left
        simp [scanSpec, hle, h]
      · right
        refine ⟨j + 1, r', hg, hle', ?_⟩
        simp [scanSpec, hle, heq]

/-- The reader currently holds record `j` of the SST with spec
`(rs, mid, root)`: the cursor points at the byte suffix of boundary
`j + 1`. -/
def ReaderAtIdx (rs : List (List Nat × List Nat)) (mid : List Nat) (root : Int)
    (rdr : SstReader) (j : Nat) : Prop :=
  rdr.data = fileOf rs mid root ∧ j < rs.length ∧ rdr.key_value = rs.get? j ∧
  rdr.next_position = some (sufAt rs mid root (j + 1))

/-- The reader's cursor is exhausted. -/
def ReaderDoneP (rdr : SstReader) : Prop :=
  rdr.key_value = none ∧ rdr.next_position = none

/-- Key of record `j` (empty when out of range). -/
def keyAt (rs : List (List Nat × List Nat)) (j : Nat) : List Nat := (rs.getD j ([], [])).1

theorem advance_sufAt_nil (rs : List (List Nat × List Nat)) (mid : List Nat) (root : Int)
    (data : List Nat) (kv : Option (List Nat × List Nat)) (b : Nat)
    (hb : rs.drop b = []) :
    SstReader.advance ⟨data, some (sufAt rs mid root b), kv⟩ = some ⟨data, none, none⟩ := by
  unfold sufAt
  rw [hb]
  simp [SstReader.advance, read_varint_unsigned, tailBytes]

theorem advance_sufAt_cons (rs : List (List Nat × List Nat)) (mid : List Nat) (root : Int)
    (data : List Nat) (kv : Option (List Nat × List Nat)) (b : Nat) (k v : List Nat)
    (rest : List (List Nat × List Nat)) (hd : rs.drop b = (k, v) :: rest)
    (hr : recWf (k, v)) :
    SstReader.advance ⟨data, some (sufAt rs mid root b), kv⟩ =
      some ⟨data, some (sufAt rs mid root (b + 1)), some (k, v)⟩ := by
  have h1 : (rs.drop b).drop 1 = rs.drop (b + 1) := List.drop_drop 1 b rs
  rw [hd] at h1
  simp only [List.drop_succ_cons, List.drop_zero] at h1
  have hrest : rs.drop (b + 1) = rest := h1.symm
  obtain ⟨hne, hl1, hl2⟩ := hr
  simp only at hne hl1 hl2
  have h1b : k.length < 4294967296 := by norm_num at hl1; exact hl1
  have h2b : v.length < 4294967296 := by norm_num at hl2; exact hl2
  have hm1 : k.length % 4294967296 = k.length := Nat.mod_eq_of_lt h1b
  have hm2 : v.length % 4294967296 = v.length := Nat.mod_eq_of_lt h2b
  unfold sufAt
  rw [hd, hrest]
  have henc : ((((k, v) :: rest).map encRecord).flatten ++ [0, 0] ++ tailBytes mid root) =
      write_varint_unsigned k.length ++ (write_varint_unsigned v.length ++
        (k ++ (v ++ ((rest.map encRecord).flatten ++ [0, 0] ++ tailBytes mid root)))) := by
    simp [encRecord, recBytes, hm1, hm2, List.append_assoc]
  rw [henc]
  simp only [SstReader.advance]
  rw [read_write_varint_unsigned k.length hl1]
  simp only []
  rw [read_write_varint_unsigned v.length hl2]
  simp only []
  have hkv0 : ¬(k.length = 0 ∧ v.length = 0) := by
    intro ⟨ha, hb2⟩
    exact hne ⟨List.length_eq_zero.mp ha, List.length_eq_zero.mp hb2⟩
  rw [if_neg hkv0]
  have hguard : k.length + v.length ≤
      (k ++ (v ++ ((rest.map encRecord).flatten ++ [0, 0] ++ tailBytes mid root))).length := by
    simp
  rw [if_pos hguard]
  have htake : (k ++ (v ++ ((rest.map encRecord).flatten ++ [0, 0] ++
      tailBytes mid root))).take k.length = k := List.take_left k _
  have hdrop1 : (k ++ (v ++ ((rest.map encRecord).flatten ++ [0, 0] ++
      tailBytes mid root))).drop k.length = v ++ ((rest.map encRecord).flatten ++ [0, 0] ++
      tailBytes mid root) := List.drop_left k _
  have hdropall : (k ++ (v ++ ((rest.map encRecord).flatten ++ [0, 0] ++
      tailBytes mid root))).drop (k.length + v.length) =
      (rest.map encRecord).flatten ++ [0, 0] ++ tailBytes mid root := by
    rw [← List.append_assoc]
    have hl : (k ++ v).length = k.length + v.length := List.length_append k v
    rw [← hl]
    exact List.drop_left (k ++ v) _
  rw [htake, hdrop1, hdropall]
  have htake2 : (v ++ ((rest.map encRecord).flatten ++ [0, 0] ++
      tailBytes mid root)).take v.length = v := List.take_left v _
  rw [htake2]

theorem advance_from_at (rs : List (List Nat × List Nat)) (mid : List Nat) (root : Int)
    (hwf : ∀ r ∈ rs, recWf r) (rdr : SstReader) (j : Nat)
    (h : ReaderAtIdx rs mid root rdr j) :
    ∃ rdr2, rdr.advance = some rdr2 ∧ rdr2.data = rdr.data ∧
      ((j + 1 < rs.length ∧ ReaderAtIdx rs mid root rdr2 (j + 1)) ∨
       (j + 1 = rs.length ∧ ReaderDoneP rdr2)) := by
  obtain ⟨d0, np0, kv0⟩ := rdr
  obtain ⟨hdata, hj, hkv, hnp⟩ := h
  simp only at hdata hkv hnp
  subst hdata hkv hnp
  by_cases hlt : j + 1 < rs.length
  · have hget : rs.drop (j + 1) = rs.get ⟨j + 1, hlt⟩ :: rs.drop (j + 2) :=
      List.drop_eq_getElem_cons hlt
    have hmem : rs.get ⟨j + 1, hlt⟩ ∈ rs := List.get_mem rs _ hlt
    refine ⟨⟨fileOf rs mid root, some (sufAt rs mid root (j + 1 + 1)),
      some (rs.get ⟨j + 1, hlt⟩)⟩, ?_, rfl, Or.inl ⟨hlt, rfl, hlt, ?_, rfl⟩⟩
    · have := advance_sufAt_cons rs mid root (fileOf rs mid root) (rs.get? j) (j + 1)
        (rs.get ⟨j + 1, hlt⟩).1 (rs.get ⟨j + 1, hlt⟩).2 (rs.drop (j + 2))
        (by rw [hget])
        (hwf _ hmem)
      rw [this]
    · exact (List.get?_eq_get hlt).symm
  · have hnil : rs.drop (j + 1) = [] := List.drop_eq_nil_of_le (by omega)
    refine ⟨⟨fileOf rs mid root, none, none⟩, ?_, rfl, Or.inr ⟨by omega, rfl, rfl⟩⟩
    exact advance_sufAt_nil rs mid root (fileOf rs mid root) (rs.get? j) (j + 1) hnil

theorem advance_from_done (rdr : SstReader) (h : ReaderDoneP rdr) :
    ∃ rdr2, rdr.advance = some rdr2 ∧ rdr2.data = rdr.data ∧ ReaderDoneP rdr2 := by
  obtain ⟨d0, np0, kv0⟩ := rdr
  obtain ⟨hkv, hnp⟩ := h
  simp only at hkv hnp
  subst hkv hnp
  exact ⟨⟨d0, none, none⟩, rfl, rfl, rfl, rfl⟩

theorem seek_state (rs : List (List Nat × List Nat)) (mid : List Nat) (root : Int)
    (d : Nat) (key : List Nat)
    (hwf : ∀ r ∈ rs, recWf r)
    (hr1 : -(2 : Int) ^ 31 ≤ root) (hr2 : root < 2 ^ 31)
    (hvalid : validNodeB (fileOf rs mid root) rs (keyAt rs 0) d root true = true)
    (hd : d ≤ (fileOf rs mid root).length) :
    ∃ rdr, (SstReader.new (fileOf rs mid root)).seek key = some rdr ∧
      rdr.data = fileOf rs mid root ∧
      ((∃ j, ReaderAtIdx rs mid root rdr j ∧ bytesLe key (keyAt rs j) ∧
          (bytesLt key (keyAt rs 0) ∨ key = [] → j = 0)) ∨
       ReaderDoneP rdr) ∧
      (bytesLt key (keyAt rs 0) ∨ key = [] → rs ≠ [] →
        ReaderAtIdx rs mid root rdr 0) := by
  obtain ⟨b, hb, hb0, hseek⟩ := seek_aligned rs mid root (keyAt rs 0) d key hwf hr1 hr2
    hvalid hd
  by_cases hsm : bytesLt key (keyAt rs 0) ∨ key = []
  · have hbz : b = 0 := hb0 hsm
    subst hbz
    rw [List.drop_zero] at hseek
    by_cases hnil : rs = []
    · subst hnil
      exact ⟨_, hseek, rfl, Or.inr ⟨rfl, rfl⟩, fun _ hne => absurd rfl hne⟩
    · obtain ⟨r0, rest, hrs⟩ := List.exists_cons_of_ne_nil hnil
      have hle0 : bytesLe key r0.1 := by
        rcases hsm with hsm | hsm
        · rw [hrs] at hsm
          exact bytesLe_iff.mpr (Or.inl (by simpa [keyAt] using hsm))
        · subst hsm
          exact bytesLe_nil r0.1
      have hscan : scanSpec mid root key rs =
          (some ((rest.map encRecord).flatten ++ [0, 0] ++ tailBytes mid root), some r0) := by
        rw [hrs]
        simp only [scanSpec, if_pos hle0]
      have hsuf : (rest.map encRecord).flatten ++ [0, 0] ++ tailBytes mid root =
          sufAt rs mid root 1 := by
        rw [sufAt, hrs]
        rfl
      rw [hscan] at hseek
      have hat : ReaderAtIdx rs mid root
          ⟨fileOf rs mid root,
            some ((rest.map encRecord).flatten ++ [0, 0] ++ tailBytes mid root),
            some r0⟩ 0 := by
        refine ⟨rfl, ?_, ?_, ?_⟩
        · rw [hrs]
          simp
        · rw [hrs]
          rfl
        · show some ((rest.map encRecord).flatten ++ [0, 0] ++ tailBytes mid root) =
            some (sufAt rs mid root (0 + 1))
          rw [hsuf]
      refine ⟨_, hseek, rfl, Or.inl ⟨0, hat, ?_, fun _ => rfl⟩, fun _ _ => hat⟩
      · rw [hrs]
        simpa [keyAt] using hle0
  · rcases scanSpec_cases mid root key (rs.drop b) with hc | ⟨j, r, hg, hle, hc⟩
    · rw [hc] at hseek
      exact ⟨_, hseek, rfl, Or.inr ⟨rfl, rfl⟩, fun hx _ => absurd hx hsm⟩
    · rw [hc] at hseek
      have hget : rs.get? (b + j) = some r := by
        rw [← List.get?_drop]
        exact hg
      have hjlt : b + j < rs.length := by
        by_contra hcon
        rw [List.get?_eq_none.mpr (by omega)] at hget
        cases hget
      have hdd : (rs.drop b).drop (j + 1) = rs.drop (b + j + 1) := by
        rw [List.drop_drop]
        rfl
      refine ⟨_, hseek, rfl, Or.inl ⟨b + j, ⟨rfl, hjlt, hget.symm, ?_⟩, ?_,
        fun hx => absurd hx hsm⟩, fun hx _ => absurd hx hsm⟩
      · show some ((((rs.drop b).drop (j + 1)).map encRecord).flatten ++ [0, 0] ++
          tailBytes mid root) = some (sufAt rs mid root (b + j + 1))
        rw [hdd]
        rfl
      · have hk : keyAt rs (b + j) = r.1 := by
          unfold keyAt
          rw [List.getD_eq_get?, hget]
          rfl
        rw [hk]
        exact hle

/-- Core binary-search loop of Rust's `slice::binary_search_by`:
half-open window `[left, right)`, `Ok` on `Equal`, `Err(left)` once the
window is empty. `fuel` bounds the loop (the window shrinks each step). -/
def binarySearchBy : Nat → (Nat → Ordering) → Nat → Nat → Except Nat Nat
  | 0, _, left, _ => Except.error left
  | fuel + 1, f, left, right =>
    if left < right then
      let mid := left + (right - left) / 2
      match f mid with
      | Ordering.lt => binarySearchBy fuel f (mid + 1) right
      | Ordering.gt => binarySearchBy fuel f left mid
      | Ordering.eq => Except.ok mid
    else Except.error left

/-- `slice::binary_search_by` over an `n`-element slice. -/
def sliceBinSearch (n : Nat) (f : Nat → Ordering) : Except Nat Nat :=
  binarySearchBy (n + 1) f 0 n

theorem binarySearchBy_err (f : Nat → Ordering) (lo n : Nat)
    (hlt : ∀ i, i < lo → f i = Ordering.lt)
    (hgt : ∀ i, lo ≤ i → i < n → f i = Ordering.gt) :
    ∀ fuel left right, left ≤ lo → lo ≤ right → right ≤ n → right - left ≤ fuel →
    binarySearchBy fuel f left right = Except.error lo := by
  intro fuel
  induction fuel with
  | zero =>
    intro left right h1 h2 h3 h4
    have : left = lo := by omega
    subst this
    rfl
  | succ fuel ih =>
    intro left right h1 h2 h3 h4
    by_cases hlr : left < right
    · have hmid1 : left ≤ left + (right - left) / 2 := by omega
      have hmid2 : left + (right - left) / 2 < right := by omega
      simp only [binarySearchBy, if_pos hlr]
      by_cases hcase : left + (right - left) / 2 < lo
      · rw [hlt _ hcase]
        exact ih (left + (right - left) / 2 + 1) right (by omega) h2 h3 (by omega)
      · rw [hgt _ (by omega) (by omega)]
        exact ih left (left + (right - left) / 2) h1 (by omega) (by omega) (by omega)
    · have : left = lo := by omega
      subst this
      simp [binarySearchBy, if_neg hlr]

theorem binarySearchBy_ok (f : Nat → Ordering) (lo hi n : Nat) (hlohi : lo < hi)
    (hlt : ∀ i, i < lo → f i = Ordering.lt)
    (heq : ∀ i, lo ≤ i → i < hi → f i = Ordering.eq)
    (hgt : ∀ i, hi ≤ i → i < n → f i = Ordering.gt) :
    ∀ fuel left right, left ≤ lo → hi ≤ right → right ≤ n → right - left ≤ fuel →
    ∃ m, lo ≤ m ∧ m < hi ∧ binarySearchBy fuel f left right = Except.ok m := by
  intro fuel
  induction fuel with
  | zero =>
    intro left right h1 h2 h3 h4
    omega
  | succ fuel ih =>
    intro left right h1 h2 h3 h4
    have hlr : left < right := by omega
    have hmid1 : left ≤ left + (right - left) / 2 := by omega
    have hmid2 : left + (right - left) / 2 < right := by omega
    simp only [binarySearchBy, if_pos hlr]
    by_cases hc1 : left + (right - left) / 2 < lo
    · rw [hlt _ hc1]
      exact ih (left + (right - left) / 2 + 1) right (by omega) h2 h3 (by omega)
    · by_cases hc2 : left + (right - left) / 2 < hi
      · rw [heq _ (by omega) hc2]
        exact ⟨left + (right - left) / 2, by omega, hc2, rfl⟩
      · rw [hgt _ (by omega) (by omega)]
        exact ih left (left + (right - left) / 2) h1 (by omega) (by omega) (by omega)

/-- `SstInfo` from `sst/mod.rs`. -/
structure SstInfo where
  min_record : List Nat
  max_record : List Nat
  size : Nat
deriving Repr, DecidableEq

/-- `NamedSst`: an SST identifier paired with its descriptor. -/
structure NamedSst where
  identifier : String
  info : SstInfo
deriving Repr, DecidableEq

instance : Inhabited NamedSst := ⟨⟨"", ⟨[], [], 0⟩⟩⟩

/-- `LsmLevel` from `lsm/level.rs`. -/
structure LsmLevel where
  ssts : List NamedSst
deriving Repr, DecidableEq

/-- The comparator closure inside `LsmLevelIter::seek`. -/
def lvlCmp (sst : NamedSst) (key : List Nat) : Ordering :=
  if bytesLt sst.info.max_record key then Ordering.lt
  else if bytesLt key sst.info.min_record then Ordering.gt
  else Ordering.eq

/-- `LsmLevelIter` state: the level, and the open reader with its SST
index. The file store is passed to the operations as a lookup function. -/
structure LsmLevelIter where
  level : LsmLevel
  current_sst : Option (SstReader × Nat)
deriving Repr, DecidableEq

def LsmLevelIter.new (level : LsmLevel) : LsmLevelIter := ⟨level, none⟩

/-- `LsmLevelIter::seek`: binary-search the SST whose range covers the
key (an `Err` insertion point falls forward to the next SST), open it
and seek the reader; past the upper end the cursor empties. `none`
models an I/O error from the store or a reader panic. -/
def LsmLevelIter.seek (store : String → Option (List Nat)) (it : LsmLevelIter)
    (key : List Nat) : Option LsmLevelIter :=
  let n := it.level.ssts.length
  let sst_offset := match sliceBinSearch n
      (fun i => lvlCmp (it.level.ssts.getD i default) key) with
    | Except.ok i => i
    | Except.error e => e
  if sst_offset < n then
    match store (it.level.ssts.getD sst_offset default).identifier with
    | none => none
    | some raw =>
      match (SstReader.new raw).seek key with
      | none => none
      | some rdr => some ⟨it.level, some (rdr, sst_offset)⟩
  else some ⟨it.level, none⟩

/-- `LsmLevelIter::get`. -/
def LsmLevelIter.get (it : LsmLevelIter) : Option (List Nat × List Nat) :=
  match it.current_sst with
  | none => none
  | some (reader, _) => reader.get

/-- `LsmLevelIter::advance`: advance the open reader; when it runs off
the end, open the next SST (if any) and seek it to the start. -/
def LsmLevelIter.advance (store : String → Option (List Nat)) (it : LsmLevelIter) :
    Option LsmLevelIter :=
  match it.current_sst with
  | none => some it
  | some (reader, idx) =>
    match reader.advance with
    | none => none
    | some r2 =>
      if r2.get.isNone then
        if idx + 1 < it.level.ssts.length then
          match store (it.level.ssts.getD (idx + 1) default).identifier with
          | none => none
          | some raw =>
            match (SstReader.new raw).seek [] with
            | none => none
            | some rdr => some ⟨it.level, some (rdr, idx + 1)⟩
        else some ⟨it.level, some (r2, idx)⟩
      else some ⟨it.level, some (r2, idx)⟩

/-- Key of the last record. -/
def lastKey (rs : List (List Nat × List Nat)) : List Nat := (rs.getLastD ([], [])).1

/-- Executable check that the SSTs of a level have pairwise disjoint
ascending key ranges. -/
def rangesB : List NamedSst → Bool
  | a :: b :: rest =>
    decide (bytesLt a.info.max_record b.info.min_record) && rangesB (b :: rest)
  | _ => true

theorem rangesB_chain' :
    ∀ l, rangesB l = true →
      List.Chain' (fun a b => bytesLt a.info.max_record b.info.min_record) l := by
  intro l
  induction l with
  | nil => intro _; simp
  | cons a rest ih =>
    intro h
    cases rest with
    | nil => simp
    | cons b rest2 =>
      simp only [rangesB, Bool.and_eq_true, decide_eq_true_eq] at h
      exact List.chain'_cons.mpr ⟨h.1, ih (by simp [rangesB, h.2])⟩

theorem ascendingB_first_le_last :
    ∀ l : List (List Nat), l ≠ [] → ascendingB l = true →
      bytesLe (l.headD []) (l.getLastD []) := by
  intro l
  induction l with
  | nil => intro h; exact absurd rfl h
  | cons a rest ih =>
    intro _ h
    cases rest with
    | nil => exact bytesLe_refl a
    | cons b rest2 =>
      simp only [ascendingB, Bool.and_eq_true, decide_eq_true_eq] at h
      have h2 := ih (by simp) h.2
      simp only [List.headD_cons] at h2
      have hlast : (a :: b :: rest2).getLastD [] = (b :: rest2).getLastD [] := by
        simp [List.getLastD_cons]
      rw [List.headD_cons, hlast]
      exact bytesLe_trans (bytesLe_iff.mpr (Or.inl h.1)) h2

/-- Per-SST specification data: the records, the search-tree bytes, the
root pointer and a bound on the tree depth. -/
structure SstSpec where
  rs : List (List Nat × List Nat)
  mid : List Nat
  root : Int
  d : Nat
deriving Repr, DecidableEq

instance : Inhabited SstSpec := ⟨⟨[], [], 0, 0⟩⟩

/-- The named SST `sst` is backed in `store` by a well-formed SST file
described by `sp`: sorted non-empty records, a valid search tree over
them, and descriptor min/max equal to the first/last record key. -/
def SstWf (store : String → Option (List Nat)) (sst : NamedSst) (sp : SstSpec) : Prop :=
  store sst.identifier = some (fileOf sp.rs sp.mid sp.root) ∧
  (∀ r ∈ sp.rs, recWf r) ∧
  ascendingB (sp.rs.map Prod.fst) = true ∧
  sp.rs ≠ [] ∧
  sst.info.min_record = keyAt sp.rs 0 ∧
  sst.info.max_record = lastKey sp.rs ∧
  -(2 : Int) ^ 31 ≤ sp.root ∧ sp.root < 2 ^ 31 ∧
  validNodeB (fileOf sp.rs sp.mid sp.root) sp.rs (keyAt sp.rs 0) sp.d sp.root true = true ∧
  sp.d ≤ (fileOf sp.rs sp.mid sp.root).length

/-- A well-formed LSM level: every SST is well-formed per its spec and
the key ranges are pairwise disjoint and ascending. -/
def LevelWf (store : String → Option (List Nat)) (level : LsmLevel)
    (sps : List SstSpec) : Prop :=
  level.ssts.length = sps.length ∧
  (∀ i, i < sps.length → SstWf store (level.ssts.getD i default) (sps.getD i default)) ∧
  rangesB level.ssts = true

theorem level_ranges_lt (ssts : List NamedSst)
    (hch : List.Chain' (fun a b => bytesLt a.info.max_record b.info.min_record) ssts)
    (hmm : ∀ s ∈ ssts, bytesLe s.info.min_record s.info.max_record) :
    ∀ gap j a b, ssts.get? j = some a → ssts.get? (j + 1 + gap) = some b →
      bytesLt a.info.max_record b.info.min_record := by
  intro gap
  induction gap with
  | zero =>
    intro j a b ha hb
    have hj1 : j + 1 < ssts.length := by
      by_contra hcon
      rw [List.get?_eq_none.mpr (by omega)] at hb
      cases hb
    have := List.chain'_iff_get.mp hch j (by omega)
    rw [List.get?_eq_get (by omega : j < ssts.length)] at ha
    rw [List.get?_eq_get hj1] at hb
    cases ha
    cases hb
    simpa using this
  | succ gap ih =>
    intro j a b ha hb
    have hblt : j + 1 + (gap + 1) < ssts.length := by
      by_contra hcon
      rw [List.get?_eq_none.mpr (by omega)] at hb
      cases hb
    have hmid : j + 1 < ssts.length := by omega
    have hja : j < ssts.length := by omega
    have hc : ssts.get? (j + 1) = some (ssts.get ⟨j + 1, hmid⟩) := List.get?_eq_get hmid
    have hadj := List.chain'_iff_get.mp hch j (by omega)
    rw [List.get?_eq_get hja] at ha
    cases ha
    have h2 : ssts.get? (j + 1 + 1 + gap) = some b := by
      rw [show j + 1 + 1 + gap = j + 1 + (gap + 1) from by omega]
      exact hb
    have h3 := ih (j + 1) (ssts.get ⟨j + 1, hmid⟩) b hc h2
    have hmem : ssts.get ⟨j + 1, hmid⟩ ∈ ssts := List.get_mem ssts _ hmid
    have hadj2 : bytesLt ((ssts.get ⟨j, hja⟩).info.max_record)
        ((ssts.get ⟨j + 1, hmid⟩).info.min_record) := by simpa using hadj
    exact bytesLt_trans (bytesLt_le_trans hadj2 (hmm _ hmem)) h3

theorem getD_of_get? {α : Type} [Inhabited α] {l : List α} {i : Nat} {a : α}
    (h : l.get? i = some a) : l.getD i default = a := by
  rw [List.getD_eq_get?, h]
  rfl

theorem getLastD_map_fst :
    ∀ (rs : List (List Nat × List Nat)) (dflt : List Nat × List Nat),
    (rs.getLastD dflt).1 = (rs.map Prod.fst).getLastD dflt.1 := by
  intro rs
  induction rs with
  | nil => intro d; rfl
  | cons r rest ih =>
    intro d
    rw [List.getLastD_cons, List.map_cons, List.getLastD_cons]
    exact ih r

theorem sstwf_min_le_max {store : String → Option (List Nat)} {sst : NamedSst}
    {sp : SstSpec} (h : SstWf store sst sp) :
    bytesLe sst.info.min_record sst.info.max_record := by
  obtain ⟨-, -, hasc, hne, hmin, hmax, -⟩ := h
  rw [hmin, hmax]
  have hb := ascendingB_first_le_last (sp.rs.map Prod.fst) (by simpa using hne) hasc
  have h1 : keyAt sp.rs 0 = (sp.rs.map Prod.fst).headD [] := by
    cases sp.rs <;> rfl
  have h2 : lastKey sp.rs = (sp.rs.map Prod.fst).getLastD [] := by
    unfold lastKey
    exact getLastD_map_fst sp.rs ([], [])
  rw [h1, h2]
  exact hb

theorem levelwf_min_le_max {store : String → Option (List Nat)} {level : LsmLevel}
    {sps : List SstSpec} (hwf : LevelWf store level sps) :
    ∀ s ∈ level.ssts, bytesLe s.info.min_record s.info.max_record := by
  obtain ⟨hlen, hss, _⟩ := hwf
  intro s hs
  obtain ⟨idx, hidx⟩ := List.mem_iff_get.mp hs
  have hilt : idx.1 < sps.length := by
    rw [← hlen]
    exact idx.2
  have hgd : level.ssts.getD idx.1 default = s := by
    rw [List.getD_eq_get level.ssts default idx.2]
    rw [← hidx]
  have := hss idx.1 hilt
  rw [hgd] at this
  exact sstwf_min_le_max this

theorem level_seek_covering (store : String → Option (List Nat)) (level : LsmLevel)
    (sps : List SstSpec) (key : List Nat) (i : Nat) (sst : NamedSst)
    (hwf : LevelWf store level sps) (hget : level.ssts.get? i = some sst)
    (h1 : bytesLe sst.info.min_record key) (h2 : bytesLe key sst.info.max_record) :
    ∃ rdr, (LsmLevelIter.new level).seek store key = some ⟨level, some (rdr, i)⟩ := by
  obtain ⟨hlen, hss, hrg⟩ := hwf
  have hch := rangesB_chain' _ hrg
  have hmm := levelwf_min_le_max ⟨hlen, hss, hrg⟩
  have hin : i < level.ssts.length := by
    by_contra hcon
    rw [List.get?_eq_none.mpr (by omega)] at hget
    cases hget
  have hgd : level.ssts.getD i default = sst := getD_of_get? hget
  have hlt : ∀ j, j < i →
      lvlCmp (level.ssts.getD j default) key = Ordering.lt := by
    intro j hj
    have hjn : j < level.ssts.length := by omega
    have hgj : level.ssts.get? j = some (level.ssts.getD j default) := by
      rw [List.getD_eq_get level.ssts default hjn, List.get?_eq_get hjn]
    have hgi : level.ssts.get? (j + 1 + (i - j - 1)) = some sst := by
      rw [show j + 1 + (i - j - 1) = i from by omega]
      exact hget
    have hr := level_ranges_lt level.ssts hch hmm (i - j - 1) j _ _ hgj hgi
    unfold lvlCmp
    rw [if_pos (bytesLt_le_trans hr h1)]
  have heqi : lvlCmp (level.ssts.getD i default) key = Ordering.eq := by
    rw [hgd]
    unfold lvlCmp
    rw [if_neg (fun hcon => bytesLt_irrefl key (bytesLe_lt_trans h2 hcon)),
      if_neg (fun hcon => bytesLt_irrefl key (bytesLt_le_trans hcon h1))]
  have hgt : ∀ j, i + 1 ≤ j → j < level.ssts.length →
      lvlCmp (level.ssts.getD j default) key = Ordering.gt := by
    intro j hj hjn
    have hgj : level.ssts.get? (i + 1 + (j - i - 1)) = some (level.ssts.getD j default) := by
      rw [show i + 1 + (j - i - 1) = j from by omega]
      rw [List.getD_eq_get level.ssts default hjn, List.get?_eq_get hjn]
    have hr := level_ranges_lt level.ssts hch hmm (j - i - 1) i _ _ hget hgj
    have hklt : bytesLt key (level.ssts.getD j default).info.min_record :=
      bytesLe_lt_trans h2 hr
    have hmem : level.ssts.getD j default ∈ level.ssts := by
      rw [List.getD_eq_get level.ssts default hjn]
      exact List.get_mem level.ssts j hjn
    have hkm : bytesLt key (level.ssts.getD j default).info.max_record :=
      bytesLt_le_trans hklt (hmm _ hmem)
    unfold lvlCmp
    rw [if_neg (fun hcon => bytesLt_irrefl key (bytesLt_trans hkm hcon)), if_pos hklt]
  obtain ⟨m, hm1, hm2, hbs⟩ := binarySearchBy_ok
    (fun j => lvlCmp (level.ssts.getD j default) key) i (i + 1) level.ssts.length
    (by omega) (fun j hj => hlt j hj) (fun j hj1 hj2 => by
      have : j = i := by omega
      subst this
      exact heqi)
    (fun j hj1 hj2 => hgt j hj1 hj2) (level.ssts.length + 1) 0 level.ssts.length
    (by omega) (by omega) (le_refl _) (by omega)
  have hmi : m = i := by omega
  rw [hmi] at hbs
  obtain ⟨hstore, -⟩ := hss i (by omega)
  rw [hgd] at hstore
  obtain ⟨rdr, hseek, -⟩ := seek_state (sps.getD i default).rs (sps.getD i default).mid
    (sps.getD i default).root (sps.getD i default).d key
    (hss i (by omega)).2.1
    (hss i (by omega)).2.2.2.2.2.2.1
    (hss i (by omega)).2.2.2.2.2.2.2.1
    (hss i (by omega)).2.2.2.2.2.2.2.2.1
    (hss i (by omega)).2.2.2.2.2.2.2.2.2
  refine ⟨rdr, ?_⟩
  simp only [LsmLevelIter.seek, LsmLevelIter.new, sliceBinSearch, hbs]
  rw [if_pos hin]
  simp only [hgd, hstore, hseek]

theorem level_seek_between (store : String → Option (List Nat)) (level : LsmLevel)
    (sps : List SstSpec) (key : List Nat) (i : Nat) (sst sst2 : NamedSst)
    (hwf : LevelWf store level sps) (hget : level.ssts.get? i = some sst)
    (hget2 : level.ssts.get? (i + 1) = some sst2)
    (h1 : bytesLt sst.info.max_record key) (h2 : bytesLt key sst2.info.min_record) :
    ∃ rdr, (LsmLevelIter.new level).seek store key = some ⟨level, some (rdr, i + 1)⟩ ∧
      rdr.get = (sps.getD (i + 1) default).rs.get? 0 := by
  obtain ⟨hlen, hss, hrg⟩ := hwf
  have hch := rangesB_chain' _ hrg
  have hmm := levelwf_min_le_max ⟨hlen, hss, hrg⟩
  have hin : i + 1 < level.ssts.length := by
    by_contra hcon
    rw [List.get?_eq_none.mpr (by omega)] at hget2
    cases hget2
  have hgd2 : level.ssts.getD (i + 1) default = sst2 := getD_of_get? hget2
  have hlt : ∀ j, j < i + 1 →
      lvlCmp (level.ssts.getD j default) key = Ordering.lt := by
    intro j hj
    have hjn : j < level.ssts.length := by omega
    have hgj : level.ssts.get? j = some (level.ssts.getD j default) := by
      rw [List.getD_eq_get level.ssts default hjn, List.get?_eq_get hjn]
    have hmax : bytesLt (level.ssts.getD j default).info.max_record key := by
      by_cases hji : j = i
      · subst hji
        rw [getD_of_get? hget]
        exact h1
      · have hgi : level.ssts.get? (j + 1 + (i - j - 1)) = some sst := by
          rw [show j + 1 + (i - j - 1) = i from by omega]
          exact hget
        have hr := level_ranges_lt level.ssts hch hmm (i - j - 1) j _ _ hgj hgi
        have hmem : sst ∈ level.ssts := List.get?_mem hget
        exact bytesLt_trans (bytesLt_le_trans hr (hmm _ hmem)) h1
    unfold lvlCmp
    rw [if_pos hmax]
  have hgt : ∀ j, i + 1 ≤ j → j < level.ssts.length →
      lvlCmp (level.ssts.getD j default) key = Ordering.gt := by
    intro j hj hjn
    have hklt : bytesLt key (level.ssts.getD j default).info.min_record := by
      by_cases hji : j = i + 1
      · subst hji
        rw [hgd2]
        exact h2
      · have hgj : level.ssts.get? (i + 1 + 1 + (j - i - 2)) =
            some (level.ssts.getD j default) := by
          rw [show i + 1 + 1 + (j - i - 2) = j from by omega]
          rw [List.getD_eq_get level.ssts default hjn, List.get?_eq_get hjn]
        have hr := level_ranges_lt level.ssts hch hmm (j - i - 2) (i + 1) _ _ hget2 hgj
        have hmem2 : sst2 ∈ level.ssts := List.get?_mem hget2
        exact bytesLt_trans (bytesLt_le_trans h2 (hmm _ hmem2)) hr
    have hmem : level.ssts.getD j default ∈ level.ssts := by
      rw [List.getD_eq_get level.ssts default hjn]
      exact List.get_mem level.ssts j hjn
    have hkm : bytesLt key (level.ssts.getD j default).info.max_record :=
      bytesLt_le_trans hklt (hmm _ hmem)
    unfold lvlCmp
    rw [if_neg (fun hcon => bytesLt_irrefl key (bytesLt_trans hkm hcon)), if_pos hklt]
  have hbs := binarySearchBy_err
    (fun j => lvlCmp (level.ssts.getD j default) key) (i + 1) level.ssts.length
    (fun j hj => hlt j hj) (fun j hj1 hj2 => hgt j hj1 hj2)
    (level.ssts.length + 1) 0 level.ssts.length
    (by omega) (by omega) (le_refl _) (by omega)
  obtain ⟨hstore, hwfr, hasc, hne, hmin, -, hr1, hr2, hvalid, hd⟩ := hss (i + 1) (by omega)
  rw [hgd2] at hstore hmin
  obtain ⟨rdr, hseek, -, -, hat0⟩ := seek_state (sps.getD (i + 1) default).rs
    (sps.getD (i + 1) default).mid (sps.getD (i + 1) default).root
    (sps.getD (i + 1) default).d key hwfr hr1 hr2 hvalid hd
  have hat := hat0 (Or.inl (by rw [← hmin]; exact h2)) hne
  refine ⟨rdr, ?_, ?_⟩
  · simp only [LsmLevelIter.seek, LsmLevelIter.new, sliceBinSearch, hbs]
    rw [if_pos hin]
    simp only [hgd2, hstore, hseek]
  · rw [SstReader.get, hat.2.2.1]

theorem level_seek_past (store : String → Option (List Nat)) (level : LsmLevel)
    (sps : List SstSpec) (key : List Nat) (sst : NamedSst)
    (hwf : LevelWf store level sps) (hlast : level.ssts.getLast? = some sst)
    (h1 : bytesLt sst.info.max_record key) :
    (LsmLevelIter.new level).seek store key = some ⟨level, none⟩ := by
  obtain ⟨hlen, hss, hrg⟩ := hwf
  have hch := rangesB_chain' _ hrg
  have hmm := levelwf_min_le_max ⟨hlen, hss, hrg⟩
  have hget : level.ssts.get? (level.ssts.length - 1) = some sst := by
    rw [← List.getLast?_eq_get?]
    exact hlast
  have hpos : 0 < level.ssts.length := by
    by_contra hcon
    have : level.ssts = [] := by
      cases h : level.ssts with
      | nil => rfl
      | cons a l => rw [h] at hcon; simp at hcon
    rw [this] at hlast
    cases hlast
  have hlt : ∀ j, j < level.ssts.length →
      lvlCmp (level.ssts.getD j default) key = Ordering.lt := by
    intro j hjn
    have hgj : level.ssts.get? j = some (level.ssts.getD j default) := by
      rw [List.getD_eq_get level.ssts default hjn, List.get?_eq_get hjn]
    have hmax : bytesLt (level.ssts.getD j default).info.max_record key := by
      by_cases hji : j = level.ssts.length - 1
      · subst hji
        rw [getD_of_get? hget]
        exact h1
      · have hgi : level.ssts.get? (j + 1 + (level.ssts.length - 1 - j - 1)) = some sst := by
          rw [show j + 1 + (level.ssts.length - 1 - j - 1) = level.ssts.length - 1 from
            by omega]
          exact hget
        have hr := level_ranges_lt level.ssts hch hmm (level.ssts.length - 1 - j - 1)
          j _ _ hgj hgi
        have hmem : sst ∈ level.ssts := List.get?_mem hget
        exact bytesLt_trans (bytesLt_le_trans hr (hmm _ hmem)) h1
    unfold lvlCmp
    rw [if_pos hmax]
  have hbs := binarySearchBy_err
    (fun j => lvlCmp (level.ssts.getD j default) key) level.ssts.length
    level.ssts.length
    (fun j hj => hlt j hj) (fun j hj1 hj2 => absurd hj1 (by omega))
    (level.ssts.length + 1) 0 level.ssts.length
    (by omega) (le_refl _) (le_refl _) (by omega)
  simp only [LsmLevelIter.seek, LsmLevelIter.new, sliceBinSearch, hbs]
  rw [if_neg (by omega)]

/-- Claim C7: for a level of SSTs with pairwise disjoint ascending key
ranges, `LsmLevelIter::seek(k)` chooses the SST whose range covers `k`;
when `k` falls strictly between two adjacent SSTs' ranges the
higher-index SST is chosen and its reader lands on that SST's first
record; when `k` exceeds the last SST's `max_record` the cursor becomes
empty and `get()` returns `None`. -/
theorem lsm_level_iter_seek_cases (store : String → Option (List Nat)) (level : LsmLevel)
    (sps : List SstSpec) (key : List Nat) (hwf : LevelWf store level sps) :
    (∀ i sst, level.ssts.get? i = some sst →
      bytesLe sst.info.min_record key → bytesLe key sst.info.max_record →
      ∃ rdr, (LsmLevelIter.new level).seek store key = some ⟨level, some (rdr, i)⟩) ∧
    (∀ i sst sst2, level.ssts.get? i = some sst → level.ssts.get? (i + 1) = some sst2 →
      bytesLt sst.info.max_record key → bytesLt key sst2.info.min_record →
      ∃ rdr, (LsmLevelIter.new level).seek store key = some ⟨level, some (rdr, i + 1)⟩ ∧
        rdr.get = (sps.getD (i + 1) default).rs.get? 0) ∧
    (∀ sst, level.ssts.getLast? = some sst → bytesLt sst.info.max_record key →
      (LsmLevelIter.new level).seek store key = some ⟨level, none⟩ ∧
      (⟨level, none⟩ : LsmLevelIter).get = none) :=
  ⟨fun i sst hg ha hb => level_seek_covering store level sps key i sst hwf hg ha hb,
   fun i sst sst2 hg hg2 ha hb =>
     level_seek_between store level sps key i sst sst2 hwf hg hg2 ha hb,
   fun sst hg ha => ⟨level_seek_past store level sps key sst hwf hg ha, rfl⟩⟩

/-- Two adjacent single-record SST files for exercising the level seek. -/
def wSst1File : List Nat := fileOf [([97], [49])] [] (-26)

def wSst2File : List Nat := fileOf [([99], [50])] [] (-26)

def wStore : String → Option (List Nat) := fun s =>
  if s = "01" then some wSst1File else if s = "02" then some wSst2File else none

def wLevel : LsmLevel := ⟨[⟨"01", ⟨[97], [97], 38⟩⟩, ⟨"02", ⟨[99], [99], 38⟩⟩]⟩

def wSps : List SstSpec := [⟨[([97], [49])], [], -26, 0⟩, ⟨[([99], [50])], [], -26, 0⟩]

theorem lsm_level_iter_seek_cases_witness :
    LevelWf wStore wLevel wSps ∧
    wLevel.ssts.get? 0 = some ⟨"01", ⟨[97], [97], 38⟩⟩ ∧
    wLevel.ssts.get? 1 = some ⟨"02", ⟨[99], [99], 38⟩⟩ ∧
    bytesLt ([97] : List Nat) [98] ∧ bytesLt ([98] : List Nat) [99] ∧
    ∃ rdr, (LsmLevelIter.new wLevel).seek wStore [98] = some ⟨wLevel, some (rdr, 1)⟩ ∧
      rdr.get = (wSps.getD 1 default).rs.get? 0 :=
  ⟨by unfold LevelWf SstWf; decide, by decide, by decide, by decide, by decide,
   (lsm_level_iter_seek_cases wStore wLevel wSps [98] (by unfold LevelWf SstWf; decide)).2.1 0
     ⟨"01", ⟨[97], [97], 38⟩⟩ ⟨"02", ⟨[99], [99], 38⟩⟩
     (by decide) (by decide) (by decide) (by decide)⟩

/-- `Next` from `lsm/mod.rs`: a heap entry holding a level index and the
level's current key. -/
structure Next where
  level : Nat
  key : List Nat
deriving Repr, DecidableEq

/-- `x` pops strictly before `y`: the reversed `Ord for Next` makes
`BinaryHeap` a min-heap on `(key, level)`. -/
def heapLtP (x y : Next) : Prop :=
  bytesLt x.key y.key ∨ (x.key = y.key ∧ x.level < y.level)

instance (x y : Next) : Decidable (heapLtP x y) :=
  inferInstanceAs (Decidable (bytesLt x.key y.key ∨ (x.key = y.key ∧ x.level < y.level)))

theorem heapLtP_irrefl (x : Next) : ¬ heapLtP x x := by
  rintro (h | ⟨-, h⟩)
  · exact bytesLt_irrefl _ h
  · omega

theorem heapLtP_trans {x y z : Next} (h1 : heapLtP x y) (h2 : heapLtP y z) :
    heapLtP x z := by
  rcases h1 with h1 | ⟨h1a, h1b⟩ <;> rcases h2 with h2 | ⟨h2a, h2b⟩
  · exact Or.inl (bytesLt_trans h1 h2)
  · exact Or.inl (h2a ▸ h1)
  · exact Or.inl (h1a ▸ h2)
  · exact Or.inr ⟨h1a.trans h2a, by omega⟩

theorem heapLtP_not_iff {x y : Next} :
    ¬ heapLtP x y ↔ heapLtP y x ∨ (y.key = x.key ∧ y.level = x.level) := by
  constructor
  · intro h
    rcases bytesLt_or_ge y.key x.key with hk | hk | hk
    · exact Or.inl (Or.inl hk)
    · have heq : x.key = y.key := hk.symm
      have hlv : ¬ x.level < y.level := fun hc => h (Or.inr ⟨heq, hc⟩)
      by_cases hle : y.level = x.level
      · exact Or.inr ⟨heq.symm, hle⟩
      · exact Or.inl (Or.inr ⟨heq.symm, by omega⟩)
    · exact absurd (Or.inl hk) h
  · rintro (h | ⟨hk, hl⟩) hc
    · exact heapLtP_irrefl x (heapLtP_trans hc h)
    · rcases hc with hc | ⟨-, hc⟩
      · rw [hk] at hc
        exact bytesLt_irrefl _ hc
      · omega

/-- The element `BinaryHeap::peek`/`pop` would return: the minimum of the
heap under `(key, level)`. -/
def heapPeek : List Next → Option Next
  | [] => none
  | x :: xs => some (xs.foldl (fun m y => if heapLtP y m then y else m) x)

theorem heapFold_spec :
    ∀ (xs : List Next) (x : Next),
      (xs.foldl (fun m y => if heapLtP y m then y else m) x = x ∨
        xs.foldl (fun m y => if heapLtP y m then y else m) x ∈ xs) ∧
      ¬ heapLtP x (xs.foldl (fun m y => if heapLtP y m then y else m) x) ∧
      ∀ y ∈ xs, ¬ heapLtP y (xs.foldl (fun m y => if heapLtP y m then y else m) x) := by
  intro xs
  induction xs with
  | nil =>
    intro x
    exact ⟨Or.inl rfl, heapLtP_irrefl x, by simp⟩
  | cons y ys ih =>
    intro x
    simp only [List.foldl_cons]
    obtain ⟨hmem, hacc, hall⟩ := ih (if heapLtP y x then y else x)
    by_cases hyx : heapLtP y x
    · rw [if_pos hyx] at hmem hacc hall ⊢
      refine ⟨?_, ?_, ?_⟩
      · rcases hmem with h | h
        · exact Or.inr (by simp [h])
        · exact Or.inr (by simp [h])
      · intro hc
        exact hacc (heapLtP_trans hyx hc)
      · intro z hz
        rcases List.mem_cons.mp hz with hz | hz
        · rw [hz]
          exact hacc
        · exact hall z hz
    · rw [if_neg hyx] at hmem hacc hall ⊢
      refine ⟨?_, hacc, ?_⟩
      · rcases hmem with h | h
        · exact Or.inl h
        · exact Or.inr (by simp [h])
      · intro z hz
        rcases List.mem_cons.mp hz with hz | hz
        · rw [hz]
          intro hc
          rcases heapLtP_not_iff.mp hyx with hxy | ⟨hk, hl⟩
          · exact hacc (heapLtP_trans hxy hc)
          · have hyex : y = x := by
              cases y
              cases x
              simp only at hk hl
              simp [hk, hl]
            rw [hyex] at hc
            exact hacc hc
        · exact hall z hz

theorem heapPeek_mem {h : List Next} {m : Next} (hp : heapPeek h = some m) : m ∈ h := by
  cases h with
  | nil => cases hp
  | cons x xs =>
    simp only [heapPeek, Option.some.injEq] at hp
    obtain ⟨hm, -, -⟩ := heapFold_spec xs x
    rw [hp] at hm
    rcases hm with hm | hm
    · simp [hm]
    · simp [hm]

theorem heapPeek_min {h : List Next} {m : Next} (hp : heapPeek h = some m) :
    ∀ x ∈ h, ¬ heapLtP x m := by
  cases h with
  | nil => cases hp
  | cons x xs =>
    simp only [heapPeek, Option.some.injEq] at hp
    obtain ⟨-, hacc, hall⟩ := heapFold_spec xs x
    rw [hp] at hacc hall
    intro z hz
    rcases List.mem_cons.mp hz with hz | hz
    · rw [hz]
      exact hacc
    · exact hall z hz

instance : Inhabited LsmLevelIter := ⟨⟨⟨[]⟩, none⟩⟩

/-- `LsmIter` state: the per-level iterators and the binary heap of
current keys, modelled as a list popped at its `(key, level)` minimum. -/
structure LsmIter where
  levels : List LsmLevelIter
  heap : List Next
deriving Repr, DecidableEq

/-- The heap `LsmIter::seek` builds: one entry per level whose iterator
currently holds a record. -/
def buildHeap (levels : List LsmLevelIter) : List Next :=
  (List.range levels.length).filterMap (fun i =>
    ((levels.getD i default).get).map (fun kv => ⟨i, kv.1⟩))

/-- Seek every level iterator in order (`none` propagates a store error
or reader panic). -/
def seekLevels (store : String → Option (List Nat)) (key : List Nat) :
    List LsmLevelIter → Option (List LsmLevelIter)
  | [] => some []
  | l :: ls =>
    match l.seek store key with
    | none => none
    | some l2 =>
      match seekLevels store key ls with
      | none => none
      | some ls2 => some (l2 :: ls2)

/-- `LsmIter::seek`. -/
def LsmIter.seek (store : String → Option (List Nat)) (it : LsmIter) (key : List Nat) :
    Option LsmIter :=
  match seekLevels store key it.levels with
  | none => none
  | some ls => some ⟨ls, buildHeap ls⟩

/-- `LsmIter::get`. -/
def LsmIter.get (it : LsmIter) : Option (List Nat × List Nat) :=
  match heapPeek it.heap with
  | none => none
  | some next => (it.levels.getD next.level default).get

/-- `LsmIter::advance`: pop the top entry, advance that level and, if it
still holds a record, push its new key back. -/
def LsmIter.advance (store : String → Option (List Nat)) (it : LsmIter) : Option LsmIter :=
  match heapPeek it.heap with
  | none => some it
  | some top =>
    match (it.levels.getD top.level default).advance store with
    | none => none
    | some lv2 =>
      match lv2.get with
      | none => some ⟨it.levels.set top.level lv2, it.heap.erase top⟩
      | some kv => some ⟨it.levels.set top.level lv2, ⟨top.level, kv.1⟩ :: it.heap.erase top⟩

/-- The `(key, level)` pair at the top of the heap. -/
def emittedPair (it : LsmIter) : Option (List Nat × Nat) :=
  match heapPeek it.heap with
  | none => none
  | some next => some (next.key, next.level)

/-- The level iterator holds record `j` of its SST number `s`. -/
def LvlAt (sps : List SstSpec) (lv : LsmLevelIter) (s j : Nat) : Prop :=
  s < lv.level.ssts.length ∧
  ∃ rdr, lv.current_sst = some (rdr, s) ∧
    ReaderAtIdx (sps.getD s default).rs (sps.getD s default).mid
      (sps.getD s default).root rdr j

/-- Key currently held by a level iterator in state `LvlAt s j`. -/
def curKey (sps : List SstSpec) (s j : Nat) : List Nat := keyAt (sps.getD s default).rs j

theorem lvlAt_get {sps : List SstSpec} {lv : LsmLevelIter} {s j : Nat}
    (h : LvlAt sps lv s j) :
    ∃ kv, lv.get = some kv ∧ (sps.getD s default).rs.get? j = some kv ∧
      kv.1 = curKey sps s j := by
  obtain ⟨hs, rdr, hcur, hdata, hj, hkv, hnp⟩ := h
  have hg : (sps.getD s default).rs.get? j =
      some ((sps.getD s default).rs.get ⟨j, hj⟩) := List.get?_eq_get hj
  refine ⟨(sps.getD s default).rs.get ⟨j, hj⟩, ?_, hg, ?_⟩
  · unfold LsmLevelIter.get
    simp only [hcur]
    show rdr.key_value = _
    rw [hkv, hg]
  · unfold curKey keyAt
    rw [List.getD_eq_get (sps.getD s default).rs ([], []) hj]

theorem ascendingB_keyAt_lt (rs : List (List Nat × List Nat))
    (hasc : ascendingB (rs.map Prod.fst) = true) (j : Nat) (h : j + 1 < rs.length) :
    bytesLt (keyAt rs j) (keyAt rs (j + 1)) := by
  have hch := ascendingB_chain' _ hasc
  have hlen : (rs.map Prod.fst).length = rs.length := List.length_map rs Prod.fst
  have hstep := List.chain'_iff_get.mp hch j (by omega)
  have hj : j < rs.length := by omega
  have h1 : keyAt rs j = (rs.map Prod.fst).get ⟨j, by omega⟩ := by
    unfold keyAt
    rw [List.getD_eq_get rs ([], []) hj, List.get_map]
  have h2 : keyAt rs (j + 1) = (rs.map Prod.fst).get ⟨j + 1, by omega⟩ := by
    unfold keyAt
    rw [List.getD_eq_get rs ([], []) h, List.get_map]
  rw [h1, h2]
  exact hstep

theorem keyAt_last (rs : List (List Nat × List Nat)) :
    keyAt rs (rs.length - 1) = lastKey rs := by
  unfold keyAt lastKey
  rw [List.getD_eq_get?, List.getLastD_eq_getLast?, List.getLast?_eq_get?]

theorem lvl_advance_step (store : String → Option (List Nat)) (lv : LsmLevelIter)
    (sps : List SstSpec) (hwf : LevelWf store lv.level sps) (s j : Nat)
    (h : LvlAt sps lv s j) :
    ∃ lv2, lv.advance store = some lv2 ∧ lv2.level = lv.level ∧
      ((∃ s2 j2, LvlAt sps lv2 s2 j2 ∧ bytesLt (curKey sps s j) (curKey sps s2 j2)) ∨
        lv2.get = none) := by
  obtain ⟨hs, rdr, hcur, hat⟩ := h
  obtain ⟨hlen, hss, hrg⟩ := hwf
  have hsp : s < sps.length := by omega
  obtain ⟨-, hwfr, hasc, hne, -, -, -, -, -, -⟩ := hss s hsp
  obtain ⟨rdr2, hadv, hdata2, hcase⟩ := advance_from_at (sps.getD s default).rs
    (sps.getD s default).mid (sps.getD s default).root hwfr rdr j hat
  rcases hcase with ⟨hlt, hat2⟩ | ⟨heq, hdone⟩
  · -- next record in the same SST
    have hget2 : rdr2.get ≠ none := by
      rw [SstReader.get, hat2.2.2.1, List.get?_eq_get hlt]
      simp
    refine ⟨⟨lv.level, some (rdr2, s)⟩, ?_, rfl,
      Or.inl ⟨s, j + 1, ⟨hs, rdr2, rfl, hat2⟩,
        ascendingB_keyAt_lt _ hasc j (by exact hlt)⟩⟩
    unfold LsmLevelIter.advance
    simp only [hcur, hadv]
    rw [if_neg (by
      intro hcon
      exact hget2 (Option.isNone_iff_eq_none.mp hcon))]
  · -- the SST is exhausted
    have hget2 : rdr2.get = none := by
      rw [SstReader.get, hdone.1]
    by_cases hroll : s + 1 < lv.level.ssts.length
    · -- roll into the next SST
      have hsp2 : s + 1 < sps.length := by omega
      obtain ⟨hstore2, hwfr2, hasc2, hne2, -, -, hr1, hr2, hvalid2, hd2⟩ := hss (s + 1) hsp2
      obtain ⟨rdr3, hseek3, -, -, hat0⟩ := seek_state (sps.getD (s + 1) default).rs
        (sps.getD (s + 1) default).mid (sps.getD (s + 1) default).root
        (sps.getD (s + 1) default).d [] hwfr2 hr1 hr2 hvalid2 hd2
      have hat3 := hat0 (Or.inr rfl) hne2
      refine ⟨⟨lv.level, some (rdr3, s + 1)⟩, ?_, rfl,
        Or.inl ⟨s + 1, 0, ⟨hroll, rdr3, rfl, hat3⟩, ?_⟩⟩
      · unfold LsmLevelIter.advance
        simp only [hcur, hadv]
        rw [if_pos (by rw [hget2]; rfl), if_pos hroll]
        simp only [hstore2, hseek3]
      · -- old key = last key of SST s < min key of SST s + 1
        have hklast : curKey sps s j = (lv.level.ssts.getD s default).info.max_record := by
          obtain ⟨-, -, -, -, -, hmax, -, -, -, -⟩ := hss s hsp
          unfold curKey
          rw [show j = (sps.getD s default).rs.length - 1 from by omega, keyAt_last, hmax]
        have hkfirst : curKey sps (s + 1) 0 =
            (lv.level.ssts.getD (s + 1) default).info.min_record := by
          obtain ⟨-, -, -, -, hmin, -, -, -, -, -⟩ := hss (s + 1) hsp2
          unfold curKey
          rw [hmin]
        rw [hklast, hkfirst]
        have hch := rangesB_chain' _ hrg
        have hstep := List.chain'_iff_get.mp hch s (by omega)
        rw [List.getD_eq_get lv.level.ssts default (by omega : s < lv.level.ssts.length),
          List.getD_eq_get lv.level.ssts default hroll]
        exact hstep
    · -- no further SST: cursor stays on the exhausted reader
      refine ⟨⟨lv.level, some (rdr2, s)⟩, ?_, rfl, Or.inr ?_⟩
      · unfold LsmLevelIter.advance
        simp only [hcur, hadv]
        rw [if_pos (by rw [hget2]; rfl), if_neg hroll]
      · unfold LsmLevelIter.get
        exact hget2

theorem level_seek_ok (store : String → Option (List Nat)) (lv : LsmLevelIter)
    (sps : List SstSpec) (key : List Nat) (hwf : LevelWf store lv.level sps) :
    ∃ lv2, lv.seek store key = some lv2 ∧ lv2.level = lv.level ∧
      ((∃ s j, LvlAt sps lv2 s j) ∨ lv2.get = none) := by
  obtain ⟨hlen, hss, hrg⟩ := hwf
  obtain ⟨o, ho⟩ : ∃ o, (match sliceBinSearch lv.level.ssts.length
      (fun i => lvlCmp (lv.level.ssts.getD i default) key) with
    | Except.ok i => i
    | Except.error e => e) = o := ⟨_, rfl⟩
  by_cases hon : o < lv.level.ssts.length
  · have hsp : o < sps.length := by omega
    obtain ⟨hstore, hwfr, hasc, hne, -, -, hr1, hr2, hvalid, hd⟩ := hss o hsp
    obtain ⟨rdr, hseek, -, hstate, -⟩ := seek_state (sps.getD o default).rs
      (sps.getD o default).mid (sps.getD o default).root
      (sps.getD o default).d key hwfr hr1 hr2 hvalid hd
    refine ⟨⟨lv.level, some (rdr, o)⟩, ?_, rfl, ?_⟩
    · unfold LsmLevelIter.seek
      simp only [ho]
      rw [if_pos hon]
      simp only [hstore, hseek]
    · rcases hstate with ⟨j, hat, -⟩ | hdone
      · exact Or.inl ⟨o, j, hon, rdr, rfl, hat⟩
      · refine Or.inr ?_
        unfold LsmLevelIter.get
        show rdr.get = none
        rw [SstReader.get, hdone.1]
  · refine ⟨⟨lv.level, none⟩, ?_, rfl, Or.inr rfl⟩
    unfold LsmLevelIter.seek
    simp only [ho]
    rw [if_neg hon]

/-- Invariant tying the heap to the level iterators: every heap entry
points at a level whose iterator holds a record with exactly that key,
and no level appears twice in the heap. -/
def IterInv (store : String → Option (List Nat)) (spss : List (List SstSpec))
    (it : LsmIter) : Prop :=
  it.levels.length = spss.length ∧
  (∀ i, i < it.levels.length →
    LevelWf store (it.levels.getD i default).level (spss.getD i default)) ∧
  (∀ x ∈ it.heap, x.level < it.levels.length ∧
    ∃ s j, LvlAt (spss.getD x.level default) (it.levels.getD x.level default) s j ∧
      x.key = curKey (spss.getD x.level default) s j) ∧
  (it.heap.map Next.level).Nodup

theorem lsm_advance_step (store : String → Option (List Nat))
    (spss : List (List SstSpec)) (it : LsmIter) (hinv : IterInv store spss it) :
    ∃ it2, it.advance store = some it2 ∧ IterInv store spss it2 ∧
      (∀ p2, emittedPair it2 = some p2 → ∃ p1, emittedPair it = some p1 ∧
        (bytesLt p1.1 p2.1 ∨ (p1.1 = p2.1 ∧ p1.2 < p2.2))) ∧
      (emittedPair it = none → emittedPair it2 = none) := by
  obtain ⟨hlen, hwfs, hsound, hnd⟩ := hinv
  have hndh : it.heap.Nodup := List.Nodup.of_map Next.level hnd
  rcases hpk : heapPeek it.heap with _ | top
  · refine ⟨it, ?_, ⟨hlen, hwfs, hsound, hnd⟩, ?_, fun _ => ?_⟩
    · unfold LsmIter.advance
      rw [hpk]
    · intro p2 hp2
      unfold emittedPair at hp2
      rw [hpk] at hp2
      cases hp2
    · unfold emittedPair
      rw [hpk]
  · have htopmem := heapPeek_mem hpk
    have htopmin := heapPeek_min hpk
    obtain ⟨htl, s, j, hat, hkey⟩ := hsound top htopmem
    obtain ⟨lv2, hadv, hlvl2, hcase⟩ := lvl_advance_step store
      (it.levels.getD top.level default) (spss.getD top.level default)
      (hwfs top.level htl) s j hat
    have hemit : emittedPair it = some (top.key, top.level) := by
      unfold emittedPair
      rw [hpk]
    have herase : ∀ x ∈ it.heap.erase top, x ∈ it.heap ∧ x ≠ top ∧
        x.level ≠ top.level := by
      intro x hx
      obtain ⟨hne, hmem⟩ := (List.Nodup.mem_erase_iff hndh).mp hx
      refine ⟨hmem, hne, fun hc => hne ?_⟩
      exact List.inj_on_of_nodup_map hnd hmem htopmem hc
    have hndmap2 : ((it.heap.erase top).map Next.level).Nodup :=
      List.Nodup.sublist (List.Sublist.map Next.level (List.erase_sublist top it.heap)) hnd
    have hsetD : ∀ i, i ≠ top.level →
        (it.levels.set top.level lv2).getD i default = it.levels.getD i default := by
      intro i hi
      rw [List.getD_eq_get?, List.getD_eq_get?, List.get?_set_ne lv2 it.levels
        (fun hc => hi hc.symm)]
    have hsetT : (it.levels.set top.level lv2).getD top.level default = lv2 := by
      rw [List.getD_eq_get?, List.get?_set_eq_of_lt lv2 htl]
      rfl
    have hlenset : (it.levels.set top.level lv2).length = it.levels.length :=
      List.length_set it.levels top.level lv2
    have hordtail : ∀ m2 ∈ it.heap.erase top,
        bytesLt top.key m2.key ∨ (top.key = m2.key ∧ top.level < m2.level) := by
      intro m2 hm2
      obtain ⟨hmem, hne, hlv⟩ := herase m2 hm2
      have hnlt := htopmin m2 hmem
      rcases heapLtP_not_iff.mp hnlt with hlt | ⟨hk, hl⟩
      · exact hlt
      · exact absurd hl.symm hlv
    rcases hcase with ⟨s2, j2, hat2, hklt⟩ | hnone
    · obtain ⟨kv2, hg2, -, hk2⟩ := lvlAt_get hat2
      refine ⟨⟨it.levels.set top.level lv2, ⟨top.level, kv2.1⟩ :: it.heap.erase top⟩,
        ?_, ⟨?_, ?_, ?_, ?_⟩, ?_, ?_⟩
      · unfold LsmIter.advance
        rw [hpk]
        simp only [hadv, hg2]
      · rw [hlenset]
        exact hlen
      · intro i hi
        rw [hlenset] at hi
        by_cases hit : i = top.level
        · subst hit
          rw [hsetT, hlvl2]
          exact hwfs _ hi
        · rw [hsetD i hit]
          exact hwfs i hi
      · intro x hx
        rcases List.mem_cons.mp hx with hx | hx
        · subst hx
          rw [hlenset]
          exact ⟨htl, s2, j2, by rw [hsetT]; exact hat2, hk2⟩
        · obtain ⟨hmem, -, hlv⟩ := herase x hx
          obtain ⟨hxl, sx, jx, hax, hkx⟩ := hsound x hmem
          rw [hlenset]
          exact ⟨hxl, sx, jx, by rw [hsetD x.level hlv]; exact hax, hkx⟩
      · show ((⟨top.level, kv2.1⟩ : Next) :: it.heap.erase top).map Next.level |>.Nodup
        rw [List.map_cons]
        refine List.nodup_cons.mpr ⟨?_, hndmap2⟩
        intro hc
        obtain ⟨x, hx, hxl⟩ := List.mem_map.mp hc
        exact (herase x hx).2.2 hxl
      · intro p2 hp2
        unfold emittedPair at hp2
        rcases hpk2 : heapPeek (⟨top.level, kv2.1⟩ :: it.heap.erase top) with _ | m2
        · rw [hpk2] at hp2
          cases hp2
        · rw [hpk2] at hp2
          cases hp2
          refine ⟨(top.key, top.level), hemit, ?_⟩
          rcases List.mem_cons.mp (heapPeek_mem hpk2) with hm2 | hm2
          · subst hm2
            refine Or.inl ?_
            rw [hkey, hk2]
            exact hklt
          · exact hordtail m2 hm2
      · intro hc
        rw [hemit] at hc
        cases hc
    · refine ⟨⟨it.levels.set top.level lv2, it.heap.erase top⟩,
        ?_, ⟨?_, ?_, ?_, ?_⟩, ?_, ?_⟩
      · unfold LsmIter.advance
        rw [hpk]
        simp only [hadv, hnone]
      · rw [hlenset]
        exact hlen
      · intro i hi
        rw [hlenset] at hi
        by_cases hit : i = top.level
        · subst hit
          rw [hsetT, hlvl2]
          exact hwfs _ hi
        · rw [hsetD i hit]
          exact hwfs i hi
      · intro x hx
        obtain ⟨hmem, -, hlv⟩ := herase x hx
        obtain ⟨hxl, sx, jx, hax, hkx⟩ := hsound x hmem
        rw [hlenset]
        exact ⟨hxl, sx, jx, by rw [hsetD x.level hlv]; exact hax, hkx⟩
      · exact hndmap2
      · intro p2 hp2
        unfold emittedPair at hp2
        rcases hpk2 : heapPeek (it.heap.erase top) with _ | m2
        · rw [hpk2] at hp2
          cases hp2
        · rw [hpk2] at hp2
          cases hp2
          exact ⟨(top.key, top.level), hemit, hordtail m2 (heapPeek_mem hpk2)⟩
      · intro hc
        rw [hemit] at hc
        cases hc

theorem seekLevels_ok (store : String → Option (List Nat)) (key : List Nat) :
    ∀ (ls : List LsmLevelIter) (sps2 : List (List SstSpec)),
    ls.length = sps2.length →
    (∀ i, i < ls.length → LevelWf store (ls.getD i default).level (sps2.getD i default)) →
    ∃ ls2, seekLevels store key ls = some ls2 ∧ ls2.length = ls.length ∧
      ∀ i, i < ls.length →
        (ls2.getD i default).level = (ls.getD i default).level ∧
        ((∃ s j, LvlAt (sps2.getD i default) (ls2.getD i default) s j) ∨
          (ls2.getD i default).get = none) := by
  intro ls
  induction ls with
  | nil =>
    intro sps2 _ _
    exact ⟨[], rfl, rfl, fun i hi => absurd hi (by simp)⟩
  | cons l rest ih =>
    intro sps2 hlen hwfs
    obtain ⟨sp, sps2t, rfl⟩ : ∃ sp sps2t, sps2 = sp :: sps2t := by
      cases sps2 with
      | nil => simp at hlen
      | cons a b => exact ⟨a, b, rfl⟩
    have hwf0 : LevelWf store l.level sp := hwfs 0 (by simp)
    obtain ⟨l2, hseekl, hlvl, hstate⟩ := level_seek_ok store l sp key hwf0
    obtain ⟨ls2t, hseekt, hlent, hstatet⟩ := ih sps2t (by simpa using hlen)
      (fun i hi => hwfs (i + 1) (by simpa using Nat.succ_lt_succ hi))
    refine ⟨l2 :: ls2t, ?_, by simp [hlent], ?_⟩
    · unfold seekLevels
      rw [hseekl, hseekt]
    · intro i hi
      cases i with
      | zero => exact ⟨hlvl, hstate⟩
      | succ i2 =>
        have := hstatet i2 (by simpa using hi)
        exact this

theorem buildHeap_sound (levels : List LsmLevelIter) (x : Next)
    (hx : x ∈ buildHeap levels) :
    x.level < levels.length ∧
    ∃ kv, (levels.getD x.level default).get = some kv ∧ x.key = kv.1 := by
  unfold buildHeap at hx
  obtain ⟨i, hi, hfi⟩ := List.mem_filterMap.mp hx
  rcases hg : (levels.getD i default).get with _ | kv
  · rw [hg] at hfi
    cases hfi
  · rw [hg] at hfi
    simp only [Option.map_some'] at hfi
    cases hfi
    exact ⟨by simpa using hi, kv, hg, rfl⟩

theorem buildHeap_nodup (levels : List LsmLevelIter) :
    ((buildHeap levels).map Next.level).Nodup := by
  have htag : ∀ (i : Nat) (x : Next),
      x ∈ (((levels.getD i default).get).map (fun kv => (⟨i, kv.1⟩ : Next))) → x.level = i := by
    intro i x hx
    rcases hg : (levels.getD i default).get with _ | kv
    · rw [hg] at hx
      cases hx
    · rw [hg] at hx
      simp only [Option.map_some', Option.mem_def, Option.some.injEq] at hx
      rw [← hx]
  have hnodup : (buildHeap levels).Nodup := by
    unfold buildHeap
    refine List.Nodup.filterMap ?_ (List.nodup_range _)
    intro a a2 b hb hb2
    rw [← htag a b hb, ← htag a2 b hb2]
  refine List.Nodup.map_on ?_ hnodup
  intro x hx y hy hxy
  unfold buildHeap at hx hy
  obtain ⟨i, -, hfi⟩ := List.mem_filterMap.mp hx
  obtain ⟨i2, -, hfi2⟩ := List.mem_filterMap.mp hy
  have h1 := htag i x hfi
  have h2 := htag i2 y hfi2
  have : i = i2 := by rw [← h1, ← h2, hxy]
  subst this
  rw [hfi] at hfi2
  cases hfi2
  rfl

theorem lsm_seek_establishes (store : String → Option (List Nat))
    (spss : List (List SstSpec)) (it : LsmIter) (key : List Nat)
    (hlen : it.levels.length = spss.length)
    (hwfs : ∀ i, i < it.levels.length →
      LevelWf store (it.levels.getD i default).level (spss.getD i default)) :
    ∃ it2, it.seek store key = some it2 ∧ IterInv store spss it2 := by
  obtain ⟨ls2, hseek, hlen2, hstate⟩ := seekLevels_ok store key it.levels spss hlen hwfs
  refine ⟨⟨ls2, buildHeap ls2⟩, ?_, ?_, ?_, ?_, ?_⟩
  · unfold LsmIter.seek
    rw [hseek]
  · show ls2.length = spss.length
    omega
  · show ∀ i, i < ls2.length → _
    intro i hi
    have hi2 : i < it.levels.length := by omega
    obtain ⟨hl, -⟩ := hstate i hi2
    show LevelWf store (ls2.getD i default).level (spss.getD i default)
    rw [hl]
    exact hwfs i hi2
  · show ∀ x ∈ buildHeap ls2, _
    intro x hx
    obtain ⟨hxl, kv, hg, hk⟩ := buildHeap_sound ls2 x hx
    have hx2 : x.level < it.levels.length := by omega
    obtain ⟨-, hst⟩ := hstate x.level hx2
    rcases hst with ⟨s, jj, hat⟩ | hnone
    · obtain ⟨kv2, hg2, -, hkc⟩ := lvlAt_get hat
      rw [hg] at hg2
      cases hg2
      exact ⟨hxl, s, jj, hat, by rw [hk, hkc]⟩
    · rw [hnone] at hg
      cases hg
  · exact buildHeap_nodup ls2

theorem lsm_get_key (store : String → Option (List Nat)) (spss : List (List SstSpec))
    (it : LsmIter) (hinv : IterInv store spss it) :
    ∀ p, emittedPair it = some p → ∃ kv, it.get = some kv ∧ kv.1 = p.1 := by
  obtain ⟨-, -, hsound, -⟩ := hinv
  intro p hp
  unfold emittedPair at hp
  rcases hpk : heapPeek it.heap with _ | top
  · rw [hpk] at hp
    cases hp
  · rw [hpk] at hp
    cases hp
    obtain ⟨-, s, j, hat, hkey⟩ := hsound top (heapPeek_mem hpk)
    obtain ⟨kv, hg, -, hkc⟩ := lvlAt_get hat
    refine ⟨kv, ?_, by rw [hkc, hkey]⟩
    unfold LsmIter.get
    rw [hpk]
    exact hg

/-- Level-0 records of the two-level merge example (`{a:1, b:1, e:1, g:1}`). -/
def c3Recs1 : List (List Nat × List Nat) :=
  [([97], [49]), ([98], [49]), ([101], [49]), ([103], [49])]

/-- Level-1 records of the two-level merge example (`{c:2, d:2, f:2, g:2}`). -/
def c3Recs2 : List (List Nat × List Nat) :=
  [([99], [50]), ([100], [50]), ([102], [50]), ([103], [50])]

def c3File1 : List Nat := fileOf c3Recs1 [] (-26)

def c3File2 : List Nat := fileOf c3Recs2 [] (-26)

/-- The two SSTs written through the in-memory store. -/
def c3Store : String → Option (List Nat) := fun id =>
  match memory_open_for_read
      (memory_write (memory_write ⟨[]⟩ "01" c3File1) "02" c3File2) id with
  | Except.ok b => some b
  | Except.error _ => none

/-- The tree iterator over the two single-SST levels. -/
def c3It0 : LsmIter :=
  ⟨[LsmLevelIter.new ⟨[⟨"01", ⟨[97], [103], 50⟩⟩]⟩,
    LsmLevelIter.new ⟨[⟨"02", ⟨[99], [103], 50⟩⟩]⟩], []⟩

def c3Spss : List (List SstSpec) :=
  [[⟨c3Recs1, [], -26, 0⟩], [⟨c3Recs2, [], -26, 0⟩]]

/-- Collect `get()` then `advance()`, `n` times. -/
def lsmGets (store : String → Option (List Nat)) :
    Nat → LsmIter → Option (List (Option (List Nat × List Nat)))
  | 0, _ => some []
  | n + 1, it =>
    match it.advance store with
    | none => none
    | some it2 =>
      match lsmGets store n it2 with
      | none => none
      | some l => some (it.get :: l)

/-- Claim C3: over levels holding well-formed SSTs with pairwise disjoint
ascending key ranges, a fresh `LsmIter::seek` establishes the merge
invariant, every `advance` preserves it while the heap-top `(key, level)`
pair strictly increases lexicographically (so the record sequence is
non-decreasing by key and equal keys surface in ascending level order,
the emitted record's key being the heap-top key), and the concrete
two-level example `{a:1,b:1,e:1,g:1}` / `{c:2,d:2,f:2,g:2}` built by the
SST writer through the in-memory store yields from `seek "b"` exactly
`(b,1), (c,2), (d,2), (e,1), (f,2), (g,1), (g,2)`, then `None`. -/
theorem lsm_iter_merge_ordered :
    (∀ (store : String → Option (List Nat)) (spss : List (List SstSpec)) (it : LsmIter)
      (key : List Nat), it.levels.length = spss.length →
      (∀ i, i < it.levels.length →
        LevelWf store (it.levels.getD i default).level (spss.getD i default)) →
      ∃ it2, it.seek store key = some it2 ∧ IterInv store spss it2) ∧
    (∀ (store : String → Option (List Nat)) (spss : List (List SstSpec)) (it : LsmIter),
      IterInv store spss it →
      ∃ it2, it.advance store = some it2 ∧ IterInv store spss it2 ∧
        (∀ p2, emittedPair it2 = some p2 → ∃ p1, emittedPair it = some p1 ∧
          (bytesLt p1.1 p2.1 ∨ (p1.1 = p2.1 ∧ p1.2 < p2.2))) ∧
        (emittedPair it = none → emittedPair it2 = none)) ∧
    (∀ (store : String → Option (List Nat)) (spss : List (List SstSpec)) (it : LsmIter),
      IterInv store spss it →
      ∀ p, emittedPair it = some p → ∃ kv, it.get = some kv ∧ kv.1 = p.1) ∧
    (pushRecords SstWriter.new c3Recs1).finish = Except.ok c3File1 ∧
    (pushRecords SstWriter.new c3Recs2).finish = Except.ok c3File2 ∧
    (c3It0.seek c3Store [98]).bind (lsmGets c3Store 8) =
      some [some ([98], [49]), some ([99], [50]), some ([100], [50]), some ([101], [49]),
        some ([102], [50]), some ([103], [49]), some ([103], [50]), none] :=
  ⟨lsm_seek_establishes, lsm_advance_step, lsm_get_key, by decide, by decide, by decide⟩

theorem lsm_iter_merge_ordered_witness :
    c3It0.levels.length = c3Spss.length ∧
    (∀ i, i < c3It0.levels.length →
      LevelWf c3Store (c3It0.levels.getD i default).level (c3Spss.getD i default)) ∧
    ∃ it2, c3It0.seek c3Store [98] = some it2 ∧ IterInv c3Store c3Spss it2 :=
  have hwfs : ∀ i, i < c3It0.levels.length →
      LevelWf c3Store (c3It0.levels.getD i default).level (c3Spss.getD i default) := by
    intro i hi
    have hl2 : c3It0.levels.length = 2 := rfl
    rw [hl2] at hi
    rcases i with _ | _ | n
    · unfold LevelWf SstWf
      decide
    · unfold LevelWf SstWf
      decide
    · omega
  ⟨rfl, hwfs, lsm_iter_merge_ordered.1 c3Store c3Spss c3It0 [98] rfl hwfs⟩
